import Mathlib

/-!
Verification model of the SVG emoji bundler scripts.

The repository contains three scripts that share a text-level SVG
"optimizer" (a fixed sequence of JavaScript global regex replacements)
and a percent-escaping data-URI encoder:

* `src/unnamed/part_000` — `ultraOptimizeSVG`, `svgToDataUri`, `bundleEmojis`;
* `src/ultra_optimized_svg_bundler.js` — `optimizeSVG`, `svgToDataUri`
  (via `encodeURIComponent`), `bundleEmojis`, `idFromFilename`;
* `src/svg_utf8_bundler.js` — `svgToDataUri` (inline cleaning + partial escaping).

Strings are modelled as `List Char` (wrapped in `String` at the API).
A JavaScript global regex replace `s.replace(/pat/g, repl)` is modelled by
`runScan mtch s`: scan left to right, at each position apply the anchored
matcher `mtch` (a hand-translated parser for the concrete pattern, with the
pattern's greedy/lazy semantics); on a match emit the replacement and
continue after it, otherwise copy one character.  The scan carries fuel
(the input length); every matcher consumes at least one character, and the
totality theorem for the pipelines proves the fuel is never exhausted.

Numeric caveat, stated once: `parseFloat(m).toFixed(2)` in JavaScript acts
on binary doubles; it is modelled here by treating the parsed value as the
exact rational of the literal.  All three output regimes of the real
`toFixed` are modelled: a value at or above the round-to-infinity threshold
`2^1024 - 2^970` prints `Infinity`, a value in `[10^21, threshold)` falls
back to `Number#toString` and prints in exponential notation, and a smaller
value prints in fixed notation with exactly two fractional digits, rounded
half up (the `toFixed` rule for positive values).  Exactness of the parsed
value is the one divergence from the engine: a real double first rounds the
literal to 53 bits, which can move a value across a rounding tie or across
a regime threshold that the literal sits within half an ulp of, and in the
exponential regime the printed significand is the double's shortest
representation rather than the literal's digit string.  No claim in this
development is evaluated at such a literal.  Likewise `parseInt` is
modelled by exact natural-number parsing and JavaScript string
comparison/lower-casing by code-point comparison/ASCII lower-casing.
-/

set_option maxHeartbeats 1000000
set_option exponentiation.threshold 1100

/-- The single-quote character, written via its code point. -/
def sglQ : Char := Char.ofNat 39

/-- The double-quote character, written via its code point. -/
def dblQ : Char := Char.ofNat 34

/-- JavaScript `\s` character class (WhiteSpace plus LineTerminator). -/
def isJsWs (c : Char) : Bool :=
  c.toNat = 32 || c.toNat = 9 || c.toNat = 10 || c.toNat = 11 || c.toNat = 12 ||
  c.toNat = 13 || c.toNat = 160 || c.toNat = 0x1680 ||
  (0x2000 ≤ c.toNat && c.toNat ≤ 0x200a) || c.toNat = 0x2028 || c.toNat = 0x2029 ||
  c.toNat = 0x202f || c.toNat = 0x205f || c.toNat = 0x3000 || c.toNat = 0xfeff

/-- JavaScript line terminators, the characters `.` does not match. -/
def isLineTerm (c : Char) : Bool :=
  c.toNat = 10 || c.toNat = 13 || c.toNat = 0x2028 || c.toNat = 0x2029

/-- JavaScript `\d` character class. -/
def isDigitCh (c : Char) : Bool := 48 ≤ c.toNat && c.toNat ≤ 57

/-- The class `[0-9a-f]` under the `i` flag, i.e. `[0-9a-fA-F]`. -/
def isHexCI (c : Char) : Bool :=
  (48 ≤ c.toNat && c.toNat ≤ 57) || (97 ≤ c.toNat && c.toNat ≤ 102) ||
  (65 ≤ c.toNat && c.toNat ≤ 70)

/-- ASCII lower-casing, the fragment of `String.prototype.toLowerCase`
exercised by file names and the case-insensitive regex literals here. -/
def asciiLower (c : Char) : Char :=
  if 65 ≤ c.toNat && c.toNat ≤ 90 then Char.ofNat (c.toNat + 32) else c

/-- Case-insensitive character equality, as used by the `i` regex flag
(canonicalisation restricted to ASCII). -/
def eqCI (a b : Char) : Bool := asciiLower a = asciiLower b

/-- The command letters of `[MLHVCSQTAZmlhvcsqtaz]`. -/
def isPathCmd (c : Char) : Bool :=
  c = 'M' || c = 'L' || c = 'H' || c = 'V' || c = 'C' || c = 'S' || c = 'Q' ||
  c = 'T' || c = 'A' || c = 'Z' ||
  c = 'm' || c = 'l' || c = 'h' || c = 'v' || c = 'c' || c = 's' || c = 'q' ||
  c = 't' || c = 'a' || c = 'z'

/-- The class `[a-zA-Z0-9_-]` of `idFromFilename`. -/
def isWordCh (c : Char) : Bool :=
  (48 ≤ c.toNat && c.toNat ≤ 57) || (97 ≤ c.toNat && c.toNat ≤ 122) ||
  (65 ≤ c.toNat && c.toNat ≤ 90) || c = '_' || c = '-'

/-! ## Generic scan engine for global regex replacement -/

/-- A matcher: anchored at the head of the list, returns the replacement
text and the remaining suffix on success. -/
abbrev Matcher := List Char → Option (List Char × List Char)

/-- One pass of `String.prototype.replace` with a global regex:
try the matcher at each position from the left; on success emit the
replacement and continue after the match, otherwise copy one character.
The fuel argument bounds the recursion; `runScan` supplies the input
length, which suffices because every matcher consumes at least one
character (`MatcherOK`). -/
def scanGo (mtch : Matcher) : Nat → List Char → Option (List Char)
  | _, [] => some []
  | 0, _ :: _ => none
  | n + 1, c :: cs =>
    match mtch (c :: cs) with
    | some (r, rest) => (scanGo mtch n rest).map (fun out => r ++ out)
    | none => (scanGo mtch n cs).map (fun out => c :: out)

/-- Run one global-replace pass over a whole list. -/
def runScan (mtch : Matcher) (l : List Char) : Option (List Char) :=
  scanGo mtch l.length l

/-- Well-formedness of a matcher: a match consumes at least one character
and leaves a suffix of its input. -/
def MatcherOK (mtch : Matcher) : Prop :=
  ∀ l r rest, mtch l = some (r, rest) → rest.length < l.length ∧ rest <:+ l

/-! ## Parser combinators for the concrete regex patterns -/

/-- Match a literal character sequence at the head. -/
def lit : List Char → List Char → Option (List Char)
  | [], l => some l
  | _ :: _, [] => none
  | p :: ps, c :: cs => if c = p then lit ps cs else none

/-- Match a literal character sequence case-insensitively (`i` flag). -/
def litCI : List Char → List Char → Option (List Char)
  | [], l => some l
  | _ :: _, [] => none
  | p :: ps, c :: cs => if eqCI c p then litCI ps cs else none

/-- Lazy quantifier: skip characters allowed by `ok` one at a time, trying
the continuation `stop` first at every position (`pat*?stop`). -/
def lazySkipTo (ok : Char → Bool) (stop : List Char → Option (List Char)) :
    List Char → Option (List Char)
  | [] => stop []
  | c :: cs =>
    match stop (c :: cs) with
    | some rest => some rest
    | none => if ok c then lazySkipTo ok stop cs else none

/-- `\s*`: greedy whitespace skip (never backtracks in the patterns used
here because the character that must follow is never whitespace). -/
def dropWs (l : List Char) : List Char := l.dropWhile isJsWs

/-! ## Numeric helpers: `parseInt`/`parseFloat`/`toFixed`/`toString(16)` -/

/-- One decimal digit as a character. -/
def decDigitChar : Nat → Char
  | 0 => '0' | 1 => '1' | 2 => '2' | 3 => '3' | 4 => '4'
  | 5 => '5' | 6 => '6' | 7 => '7' | 8 => '8' | _ => '9'

/-- One lower-case hexadecimal digit as a character, as produced by
`Number.prototype.toString(16)`. -/
def hexDigitChar : Nat → Char
  | 0 => '0' | 1 => '1' | 2 => '2' | 3 => '3' | 4 => '4'
  | 5 => '5' | 6 => '6' | 7 => '7' | 8 => '8' | 9 => '9'
  | 10 => 'a' | 11 => 'b' | 12 => 'c' | 13 => 'd' | 14 => 'e' | _ => 'f'

/-- Decimal digits of a natural number, most significant first.  The fuel
argument makes the recursion structural (kernel-reducible); `n + 1` steps
always suffice since the value shrinks at every step. -/
def decDigitsAux : Nat → Nat → List Char
  | 0, _ => []
  | fuel + 1, n =>
    if n < 10 then [decDigitChar n]
    else decDigitsAux fuel (n / 10) ++ [decDigitChar (n % 10)]

/-- Decimal digits of a natural number, most significant first. -/
def decDigits (n : Nat) : List Char := decDigitsAux (n + 1) n

/-- Lower-case hexadecimal digits, most significant first, with fuel as
in `decDigitsAux`: the model of `parseInt(x).toString(16)`. -/
def natToHexAux : Nat → Nat → List Char
  | 0, _ => []
  | fuel + 1, n =>
    if n < 16 then [hexDigitChar n]
    else natToHexAux fuel (n / 16) ++ [hexDigitChar (n % 16)]

/-- Lower-case hexadecimal digits of a natural number. -/
def natToHexL (n : Nat) : List Char := natToHexAux (n + 1) n

/-- Value of a decimal digit string (model of `parseInt` on digits). -/
def decToNat (l : List Char) : Nat := l.foldl (fun a c => a * 10 + (c.toNat - 48)) 0

/-- The IEEE-754 double overflow threshold: round-to-nearest sends any
value at or above `2^1024 - 2^970` (the midpoint above the largest finite
double) to infinity, and `toFixed` then prints `"Infinity"`. -/
def jsOverflowBound : Nat := 2 ^ 1024 - 2 ^ 970

/-- Drop trailing `'0'` characters. -/
def stripZeros (l : List Char) : List Char :=
  (l.reverse.dropWhile (fun c => c = '0')).reverse

/-- `Number#toString` for a value `n + 0.frac` with `n ≥ 10^21`, the form
`toFixed` falls back to in that range: exponential notation `d.ddd…e+k`
with the trailing zeros of the significand stripped and the exponent one
less than the digit count of the integer part.  The significand keeps all
significant digits of the exact value; see the module comment for the
binary-double caveat. -/
def jsExpForm (n : Nat) (frac : List Char) : List Char :=
  match stripZeros (decDigits n ++ frac) with
  | [] => ['0']
  | d :: rest =>
    d :: ((if rest.isEmpty then [] else '.' :: rest) ++
      'e' :: '+' :: decDigits ((decDigits n).length - 1))

/-- Fixed-notation printing of `n / 100` with exactly two fractional
digits: the value of `x.toFixed(2)` below `10^21` is the half-up rounding
of `100 x`, printed as digits with a dot before the last two. -/
def fixed2Of (n : Nat) : List Char :=
  let ds := decDigits n
  let ds3 := if ds.length < 3 then List.replicate (3 - ds.length) '0' ++ ds else ds
  ds3.take (ds3.length - 2) ++ '.' :: ds3.drop (ds3.length - 2)

/-- Model of `parseFloat(d1 ++ "." ++ d2).toFixed(2)` for digit strings
`d1`, `d2`, with the three regimes of the real `toFixed`: `"Infinity"` at
or above the double overflow threshold, exponential notation (the
`Number#toString` fallback) from `10^21` up, and otherwise exact rational
rounding to two places, round half up (the `toFixed` tie rule for positive
values picks the larger candidate).  The fraction is below one and both
thresholds are integers, so comparing the integer part against them
decides the regime of the exact value.  See the module comment for the
binary-double caveat. -/
def toFixed2Repl (d1 d2 : List Char) : List Char :=
  if jsOverflowBound ≤ decToNat d1 then "Infinity".data
  else if 10 ^ 21 ≤ decToNat d1 then jsExpForm (decToNat d1) d2
  else fixed2Of ((200 * decToNat (d1 ++ d2) + 10 ^ d2.length) / (2 * 10 ^ d2.length))

/-- Model of `parseInt(x).toString(16).padStart(2, "0")`. -/
def pad2Hex (n : Nat) : List Char :=
  let h := natToHexL n
  if h.length < 2 then '0' :: h else h

/-! ## Consumer infrastructure -/

/-- A consumer matches an anchored pattern fragment and returns the rest. -/
abbrev Consumer := List Char → Option (List Char)

/-- Soundness without progress (the fragment may match the empty string). -/
def ConsumerLE (f : Consumer) : Prop :=
  ∀ l r, f l = some r → r.length ≤ l.length ∧ r <:+ l

/-- Soundness with progress (the fragment consumes at least one character). -/
def ConsumerLT (f : Consumer) : Prop :=
  ∀ l r, f l = some r → r.length < l.length ∧ r <:+ l

/-- Sequencing of two pattern fragments. -/
def pseq (f g : Consumer) : Consumer := fun l => (f l).bind g

/-- A literal fragment as a consumer. -/
def litC (pat : List Char) : Consumer := fun l => lit pat l

/-- A case-insensitive literal fragment as a consumer. -/
def litCIc (pat : List Char) : Consumer := fun l => litCI pat l

/-- `\s*` as a consumer. -/
def skipWsC : Consumer := fun l => some (dropWs l)

/-- `[^ch]*` as a consumer (greedy, cannot cross `ch`). -/
def dropUntilC (ch : Char) : Consumer := fun l => some (l.dropWhile (fun c => c != ch))

/-- `[\s\S]*?stop`: lazy skip over any character. -/
def lazyAnyTo (stop : Consumer) : Consumer := lazySkipTo (fun _ => true) stop

/-- `.*?stop`: lazy skip over any character except a line terminator. -/
def lazyDotTo (stop : Consumer) : Consumer := lazySkipTo (fun c => !isLineTerm c) stop

/-- `\s+` as a consumer. -/
def wsPlus : Consumer
  | [] => none
  | c :: cs => if isJsWs c then some (cs.dropWhile isJsWs) else none

/-- Matcher with a fixed replacement text over a consumer. -/
def constRepl (repl : List Char) (f : Consumer) : Matcher :=
  fun l => (f l).map (fun rest => (repl, rest))

/-! ## Matchers for the concrete regex patterns of the optimizers -/

/-- Tail of `<\?xml[^>]*\?>` after the `<?xml` literal: `[^>]*` cannot
cross a `>`, so the match must end at the first `>`, which backtracking
forces to be preceded by `?`. -/
def xmlTail : Consumer
  | [] => none
  | c :: cs =>
    if c = '>' then none
    else if c = '?' && cs.head? = some '>' then some cs.tail
    else xmlTail cs

/-- `<\?xml[^>]*\?>` → `""`. -/
def tryXmlDecl : Matcher := constRepl [] (pseq (litC "<?xml".data) xmlTail)

/-- `<!--[\s\S]*?-->` → `""`. -/
def tryComment : Matcher :=
  constRepl [] (pseq (litC "<!--".data) (lazyAnyTo (litC "-->".data)))

/-- `<name[\s\S]*?<\/name>` (flags `gi`) → `""`, for `metadata`, `title`, `desc`. -/
def tryElemCI (name : List Char) : Matcher :=
  constRepl [] (pseq (litCIc ('<' :: name))
    (lazyAnyTo (litCIc ('<' :: '/' :: name ++ ['>']))))

/-- part_000's `\s*xmlns:.*?=".*?"` → `""` (lazy dots cannot cross a line
terminator but can cross anything else, including other attributes). -/
def tryXmlnsLazy : Matcher :=
  constRepl [] (pseq skipWsC (pseq (litC "xmlns:".data)
    (pseq (lazyDotTo (litC ['=', dblQ])) (lazyDotTo (litC [dblQ])))))

/-- part_000's `\s*attr=".*?"` → `""` for `xml:space`, `data-name`, `id`
(`pat` is the literal up to and including the opening quote). -/
def tryAttrLazy (pat : List Char) : Matcher :=
  constRepl [] (pseq skipWsC (pseq (litC pat) (lazyDotTo (litC [dblQ]))))

/-- The ultra bundler's `\s*xmlns:[^=]*="[^"]*"` → `""`. -/
def tryXmlnsGreedy : Matcher :=
  constRepl [] (pseq skipWsC (pseq (litC "xmlns:".data)
    (pseq (dropUntilC '=') (pseq (litC ['=', dblQ])
      (pseq (dropUntilC dblQ) (litC [dblQ]))))))

/-- The ultra bundler's `\s*attr="[^"]*"` → `""` for `xml:space`, `data-name`. -/
def tryAttrGreedy (pat : List Char) : Matcher :=
  constRepl [] (pseq skipWsC (pseq (litC pat)
    (pseq (dropUntilC dblQ) (litC [dblQ]))))

/-- `(\d+\.\d{3,})` → `parseFloat(m).toFixed(2)`.  `\d+` is forced to the
maximal digit run (a shorter choice would put a digit where `\.` must
match), and `\d{3,}` is the maximal run after the dot. -/
def tryDecimal : Matcher := fun l =>
  let d1 := l.takeWhile isDigitCh
  if d1.isEmpty then none
  else
    match l.dropWhile isDigitCh with
    | c :: cs =>
      if c = '.' then
        let d2 := cs.takeWhile isDigitCh
        if 3 ≤ d2.length then some (toFixed2Repl d1 d2, cs.dropWhile isDigitCh)
        else none
      else none
    | [] => none

/-- `\s*([MLHVCSQTAZmlhvcsqtaz])\s*` → `$1`. -/
def tryPathLetter : Matcher := fun l =>
  match dropWs l with
  | [] => none
  | c :: cs => if isPathCmd c then some ([c], dropWs cs) else none

/-- `\s+` → `" "`. -/
def tryWsCollapse : Matcher := constRepl [' '] wsPlus

/-- `>\s+<` → `"><"`. -/
def tryGtLtGap : Matcher :=
  constRepl ['>', '<'] (pseq (litC ['>']) (pseq wsPlus (litC ['<'])))

/-- `\s*=\s*` → `"="`. -/
def tryEqTrim : Matcher :=
  constRepl ['='] (pseq skipWsC (pseq (litC ['=']) skipWsC))

/-- `rgb\(\s*(\d+)\s*,\s*(\d+)\s*,\s*(\d+)\s*\)` (flag `i`) →
`"#" + channels in 2-padded lower-case hex`. -/
def tryRgb : Matcher := fun l =>
  match litCI "rgb(".data l with
  | none => none
  | some l1 =>
    let l2 := dropWs l1
    let d1 := l2.takeWhile isDigitCh
    if d1.isEmpty then none
    else
      match lit [','] (dropWs (l2.dropWhile isDigitCh)) with
      | none => none
      | some l3 =>
        let l4 := dropWs l3
        let d2 := l4.takeWhile isDigitCh
        if d2.isEmpty then none
        else
          match lit [','] (dropWs (l4.dropWhile isDigitCh)) with
          | none => none
          | some l5 =>
            let l6 := dropWs l5
            let d3 := l6.takeWhile isDigitCh
            if d3.isEmpty then none
            else
              match lit [')'] (dropWs (l6.dropWhile isDigitCh)) with
              | none => none
              | some rest =>
                some ('#' :: (pad2Hex (decToNat d1) ++ pad2Hex (decToNat d2) ++
                  pad2Hex (decToNat d3)), rest)

/-- `#([0-9a-f])\1([0-9a-f])\2([0-9a-f])\3` (flag `i`, with
case-insensitive back-references) → `#$1$2$3`. -/
def tryHexPair : Matcher := fun l =>
  match l with
  | a :: b :: c :: d :: e :: f :: g :: rest =>
    if a = '#' && isHexCI b && eqCI c b && isHexCI d && eqCI e d &&
       isHexCI f && eqCI g f
    then some (['#', b, d, f], rest) else none
  | _ => none

/-- `\s*attr` → `""` for the plain double-quoted literal attributes
(`fill-rule="nonzero"`, `fill-opacity="1"`, `stroke-opacity="1"`,
`opacity="1"`). -/
def tryWsLit (pat : List Char) : Matcher := constRepl [] (pseq skipWsC (litC pat))

/-- `\s*version='[^']*'` → `""` (runs after the quote conversion). -/
def tryVersion : Matcher :=
  constRepl [] (pseq skipWsC (pseq (litC ("version=".data ++ [sglQ]))
    (pseq (dropUntilC sglQ) (litC [sglQ]))))

/-- `transform='translate\(0,?\s*0?\)'` → `""`.  The optional parts never
need regex backtracking on the shapes reachable here: `,?` failing to take
a present comma can never help, and `0?` is resolved by looking at the
next character. -/
def tryTransform0 : Matcher := fun l =>
  match lit ("transform=".data ++ [sglQ] ++ "translate(0".data) l with
  | none => none
  | some l1 =>
    let l2 := if l1.head? = some ',' then l1.tail else l1
    match dropWs l2 with
    | c :: c2 :: rest =>
      if c = ')' && c2 = sglQ then some ([], rest)
      else if c = '0' && c2 = ')' && rest.head? = some sglQ then some ([], rest.tail)
      else none
    | _ => none

/-- `<g[^>]*>\s*<\/g>` → `""`. -/
def tryEmptyG : Matcher :=
  constRepl [] (pseq (litC "<g".data)
    (pseq (dropUntilC '>') (pseq (litC ['>']) (pseq skipWsC (litC "</g>".data)))))

/-! ## Total rewriting steps and pipeline plumbing -/

/-- `"` → `'` (a single-character global replace is a character-wise bind). -/
def quoteSwapL (l : List Char) : List Char :=
  l.flatMap (fun c => if c = dblQ then [sglQ] else [c])

/-- `String.prototype.trim`. -/
def jsTrimL (l : List Char) : List Char :=
  ((l.dropWhile isJsWs).reverse.dropWhile isJsWs).reverse

/-- One global-replace pass threaded through the `Option` pipeline. -/
def scanStep (mtch : Matcher) (o : Option (List Char)) : Option (List Char) :=
  o.bind (runScan mtch)

/-- One total rewriting step threaded through the `Option` pipeline. -/
def mapStep (f : List Char → List Char) (o : Option (List Char)) : Option (List Char) :=
  o.map f

/-- The fixed `data:` URI head shared by all three encoders. -/
def dataUriHead : String := "data:image/svg+xml;charset=utf-8,"

namespace Part000

/-- `ultraOptimizeSVG` from `src/unnamed/part_000` (lines 42–110): the ten
numbered replace groups of the source, in source order, on `List Char`.
`AGGRESSIVE_OPTIMIZE` is the hard-coded `true`, so the version, no-op
transform and empty-group removals are included. -/
def ultraOptimizeL (l : List Char) : Option (List Char) :=
  some l
  |> scanStep tryXmlDecl
  |> scanStep tryComment
  |> scanStep (tryElemCI "metadata".data)
  |> scanStep (tryElemCI "title".data)
  |> scanStep (tryElemCI "desc".data)
  |> scanStep tryXmlnsLazy
  |> scanStep (tryAttrLazy "xml:space=\"".data)
  |> scanStep (tryAttrLazy "data-name=\"".data)
  |> scanStep (tryAttrLazy "id=\"".data)
  |> scanStep tryDecimal
  |> scanStep tryPathLetter
  |> scanStep tryWsCollapse
  |> scanStep tryGtLtGap
  |> scanStep tryEqTrim
  |> scanStep tryRgb
  |> scanStep tryHexPair
  |> scanStep (tryWsLit "fill-rule=\"nonzero\"".data)
  |> scanStep (tryWsLit "fill-opacity=\"1\"".data)
  |> scanStep (tryWsLit "stroke-opacity=\"1\"".data)
  |> scanStep (tryWsLit "opacity=\"1\"".data)
  |> mapStep quoteSwapL
  |> mapStep jsTrimL
  |> scanStep tryVersion
  |> scanStep tryTransform0
  |> scanStep tryEmptyG

/-- Option-valued `ultraOptimizeSVG` on `String`. -/
def ultraOptimizeSVG? (s : String) : Option String := (ultraOptimizeL s.data).map String.mk

/-- Total `ultraOptimizeSVG`; by `ultraOptimizeL_isSome` the default
branch is never taken. -/
def ultraOptimizeSVG (s : String) : String := String.mk ((ultraOptimizeL s.data).getD s.data)

/-- The percent-escaping chain of part_000's `svgToDataUri` (lines
119–125): `%` first, then `'`, `#`, `<`, `>`, then every `\s` to `%20`.
Each is a single-character global replace, i.e. a character-wise bind. -/
def encodeP0L (l : List Char) : List Char :=
  (((((l.flatMap (fun c => if c = '%' then "%25".data else [c])).flatMap
      (fun c => if c = sglQ then "%27".data else [c])).flatMap
      (fun c => if c = '#' then "%23".data else [c])).flatMap
      (fun c => if c = '<' then "%3C".data else [c])).flatMap
      (fun c => if c = '>' then "%3E".data else [c])).flatMap
      (fun c => if isJsWs c then "%20".data else [c])

/-- part_000's `svgToDataUri` (lines 115–128). -/
def svgToDataUri (s : String) : String :=
  dataUriHead ++ String.mk (encodeP0L (ultraOptimizeSVG s).data)

end Part000

namespace Fixed

/-- `optimizeSVG` from `src/ultra_optimized_svg_bundler.js` (lines 39–85):
the six numbered replace groups of the source, in source order. -/
def optimizeL (l : List Char) : Option (List Char) :=
  some l
  |> scanStep tryXmlDecl
  |> scanStep tryComment
  |> scanStep (tryElemCI "metadata".data)
  |> scanStep (tryElemCI "title".data)
  |> scanStep (tryElemCI "desc".data)
  |> scanStep tryXmlnsGreedy
  |> scanStep (tryAttrGreedy "xml:space=\"".data)
  |> scanStep (tryAttrGreedy "data-name=\"".data)
  |> scanStep tryDecimal
  |> scanStep tryWsCollapse
  |> scanStep tryGtLtGap
  |> scanStep tryEqTrim
  |> mapStep jsTrimL
  |> scanStep tryRgb
  |> scanStep tryHexPair
  |> scanStep (tryWsLit "fill-opacity=\"1\"".data)
  |> scanStep (tryWsLit "stroke-opacity=\"1\"".data)
  |> scanStep (tryWsLit "opacity=\"1\"".data)

/-- Option-valued `optimizeSVG` on `String`. -/
def optimizeSVG? (s : String) : Option String := (optimizeL s.data).map String.mk

/-- Total `optimizeSVG`; by `optimizeL_isSome` the default branch is
never taken. -/
def optimizeSVG (s : String) : String := String.mk ((optimizeL s.data).getD s.data)

/-- The characters `encodeURIComponent` leaves unescaped:
`A–Z a–z 0–9 - _ . ! ~ * ' ( )`. -/
def isUriUnreserved (c : Char) : Bool :=
  (65 ≤ c.toNat && c.toNat ≤ 90) || (97 ≤ c.toNat && c.toNat ≤ 122) ||
  (48 ≤ c.toNat && c.toNat ≤ 57) ||
  c = '-' || c = '_' || c = '.' || c = '!' || c = '~' || c = '*' || c = sglQ ||
  c = '(' || c = ')'

/-- An upper-case hexadecimal digit, as used in `%XX` escapes. -/
def upHexDigitChar : Nat → Char
  | 0 => '0' | 1 => '1' | 2 => '2' | 3 => '3' | 4 => '4'
  | 5 => '5' | 6 => '6' | 7 => '7' | 8 => '8' | 9 => '9'
  | 10 => 'A' | 11 => 'B' | 12 => 'C' | 13 => 'D' | 14 => 'E' | _ => 'F'

/-- UTF-8 bytes of a scalar value (what `encodeURIComponent` escapes for
characters outside the unreserved set; surrogate pairs in the JS string
encode to the same bytes as the scalar here). -/
def utf8Bytes (c : Char) : List Nat :=
  let n := c.toNat
  if n < 0x80 then [n]
  else if n < 0x800 then [0xc0 + n / 64, 0x80 + n % 64]
  else if n < 0x10000 then [0xe0 + n / 4096, 0x80 + n / 64 % 64, 0x80 + n % 64]
  else [0xf0 + n / 262144, 0x80 + n / 4096 % 64, 0x80 + n / 64 % 64, 0x80 + n % 64]

/-- A `%XX` escape for one byte. -/
def pctByte (b : Nat) : List Char := ['%', upHexDigitChar (b / 16), upHexDigitChar (b % 16)]

/-- `encodeURIComponent` on `List Char`. -/
def encodeURIComponentL (l : List Char) : List Char :=
  l.flatMap (fun c => if isUriUnreserved c then [c] else (utf8Bytes c).flatMap pctByte)

/-- The ultra bundler's `svgToDataUri` (lines 90–98). -/
def svgToDataUri (s : String) : String :=
  dataUriHead ++ String.mk (encodeURIComponentL (optimizeSVG s).data)

end Fixed

namespace Utf8

/-- `<!--.*?-->` → `""` (note `.`, not `[\s\S]`: the lazy dots of this
variant cannot cross a line terminator). -/
def tryCommentDot : Matcher :=
  constRepl [] (pseq (litC "<!--".data) (lazyDotTo (litC "-->".data)))

/-- The inline cleaning chain of `svgToDataUri` in
`src/svg_utf8_bundler.js` (lines 39–43): trim, collapse whitespace,
strip single-line comments, remove whitespace between tags. -/
def cleanL (l : List Char) : Option (List Char) :=
  some (jsTrimL l)
  |> scanStep tryWsCollapse
  |> scanStep tryCommentDot
  |> scanStep tryGtLtGap

/-- The escaping chain of the same function (lines 46–51): `#`, then `"`
to `'`, then `\n`, `\r`, and `%` last — so the `%` of an earlier `%23`
escape is itself re-escaped. -/
def encodeU8L (l : List Char) : List Char :=
  ((((l.flatMap (fun c => if c = '#' then "%23".data else [c])).flatMap
      (fun c => if c = dblQ then [sglQ] else [c])).flatMap
      (fun c => if c = '\n' then "%0A".data else [c])).flatMap
      (fun c => if c = '\r' then "%0D".data else [c])).flatMap
      (fun c => if c = '%' then "%25".data else [c])

/-- `svgToDataUri` from `src/svg_utf8_bundler.js` (lines 37–54). -/
def svgToDataUri (s : String) : String :=
  dataUriHead ++ String.mk (encodeU8L ((cleanL s.data).getD s.data))

end Utf8

/-! ## Spec-side decoding and payload extraction -/

/-- Value of one hexadecimal digit (either case). -/
def hexVal (c : Char) : Nat :=
  if 48 ≤ c.toNat && c.toNat ≤ 57 then c.toNat - 48
  else if 97 ≤ c.toNat && c.toNat ≤ 102 then c.toNat - 87
  else if 65 ≤ c.toNat && c.toNat ≤ 70 then c.toNat - 55
  else 0

/-- Modelled from the spec: the `decode` of §8, "reverses the
percent-encoding": standard percent-decoding, replacing every `%XX`
escape (hex digits of either case) by the character with that code and
leaving other characters alone.  (No decoder exists in the repository;
this is the spec's reading of round-trip fidelity.) -/
def percentDecodeL : List Char → List Char
  | [] => []
  | '%' :: a :: b :: rest =>
    if isHexCI a && isHexCI b then
      Char.ofNat (16 * hexVal a + hexVal b) :: percentDecodeL rest
    else '%' :: percentDecodeL (a :: b :: rest)
  | c :: rest => c :: percentDecodeL rest

/-- `percentDecodeL` on `String`. -/
def percentDecodeS (s : String) : String := String.mk (percentDecodeL s.data)

/-- Modelled from the spec: stripping the `data:image/svg+xml;charset=utf-8,`
head of a data URI, leaving the percent-encoded payload. -/
def dataUriPayload (s : String) : String :=
  String.mk (s.data.drop dataUriHead.data.length)

namespace Fixed

/-! ## The bundler loop of `bundleEmojis` (lines 113–210) -/

/-- `file.toLowerCase().endsWith(".svg")` (line 127). -/
def endsWithSvg (name : String) : Bool :=
  ".svg".data.isSuffixOf (name.data.map asciiLower)

/-- Code-unit lexicographic order, the default `Array.prototype.sort`
comparator (code points coincide with code units on the BMP). -/
def lexLe : List Char → List Char → Bool
  | [], _ => true
  | _ :: _, [] => false
  | a :: as, b :: bs =>
    if a.toNat < b.toNat then true
    else if b.toNat < a.toNat then false
    else lexLe as bs

/-- Insertion into a sorted list (model of `Array.prototype.sort`). -/
def insertSorted (x : String) : List String → List String
  | [] => [x]
  | y :: ys => if lexLe x.data y.data then x :: y :: ys else y :: insertSorted x ys

/-- `files.sort()` as insertion sort. -/
def sortNames (l : List String) : List String := l.foldr insertSorted []

/-- The `files` list (lines 126–128): names filtered by extension, sorted. -/
def svgFiles (dir : List (String × Option String)) : List String :=
  sortNames ((dir.map Prod.fst).filter endsWithSvg)

/-- `path.basename(file, ".svg")` for a directory-free name: strips one
final exact `.svg` unless the whole name is `.svg`. -/
def basenameKey (file : String) : String :=
  if 4 < file.data.length && ".svg".data.isSuffixOf file.data then
    String.mk (file.data.take (file.data.length - 4))
  else file

/-- JavaScript object assignment `emojiData[key] = v`: overwrite in place
if the key exists, append otherwise. -/
def objInsert : List (String × String) → String → String → List (String × String)
  | [], k, v => [(k, v)]
  | (k0, v0) :: rest, k, v =>
    if k0 = k then (k0, v) :: rest else (k0, v0) :: objInsert rest k v

/-- `fs.readFileSync` through the directory model: `none` models a read
that throws. -/
def readFile (dir : List (String × Option String)) (name : String) : Option String :=
  match dir.find? (fun e => e.1 == name) with
  | some e => e.2
  | none => none

/-- The running accumulator of the per-file loop (lines 139–146). -/
structure BundleState where
  bundle : List (String × String)
  processed : Nat
  errors : Nat
deriving DecidableEq

/-- The body of the per-file loop (lines 151–171): success inserts the
data URI under the basename key and bumps `processed`; a read failure is
caught and bumps `errors`. -/
def processFile (dir : List (String × Option String)) (st : BundleState)
    (file : String) : BundleState :=
  match readFile dir file with
  | some content =>
    { bundle := objInsert st.bundle (basenameKey file) (svgToDataUri content),
      processed := st.processed + 1, errors := st.errors }
  | none => { st with errors := st.errors + 1 }

/-- The `BATCH_SIZE = 200` slicing of the outer loop (line 148), with
fuel making the recursion structural; the input length always suffices
since every step drops at least one element. -/
def batchesAux : Nat → List String → List (List String)
  | 0, _ => []
  | _, [] => []
  | fuel + 1, x :: xs => ((x :: xs).take 200) :: batchesAux fuel ((x :: xs).drop 200)

/-- The `BATCH_SIZE = 200` slicing of the outer loop (line 148). -/
def batches (l : List String) : List (List String) := batchesAux l.length l

/-- The outcome of a run: `fatal e` models `process.exit(e)` before any
output is written; `done` models reaching the end (exit status 0) with
the accumulated bundle and counters. -/
inductive RunResult where
  | fatal (exitCode : Nat)
  | done (bundle : List (String × String)) (processed : Nat) (errors : Nat)
deriving DecidableEq

/-- `bundleEmojis` (lines 113–210), up to the write of the output file:
exit 1 when the directory is missing; exit 1 when no `.svg` file matches;
otherwise process every file (read failures are caught per file) and
reach the end with exit status 0. -/
def bundleEmojis (dirExists : Bool) (dir : List (String × Option String)) : RunResult :=
  if !dirExists then .fatal 1
  else
    let files := svgFiles dir
    if files.isEmpty then .fatal 1
    else
      let st := (batches files).foldl (fun acc batch => batch.foldl (processFile dir) acc)
        ⟨[], 0, 0⟩
      .done st.bundle st.processed st.errors

/-! ## `idFromFilename` of the sprite assembler (lines 305–308) -/

/-- `name.replace(/\.[^/.]+$/, "")`: the pattern is anchored at the end,
so the first (leftmost) match runs from a `.` whose tail is nonempty and
free of `.` and `/`, to the end; replacing it with the empty string keeps
only the part before that dot. -/
def stripExtL : List Char → List Char
  | [] => []
  | c :: cs =>
    if c = '.' && !cs.isEmpty && cs.all (fun x => x != '.' && x != '/') then []
    else c :: stripExtL cs

/-- `idFromFilename` (lines 305–308): `"e_"` plus the name without its
extension, with every character outside `[a-zA-Z0-9_-]` replaced by `_`
(a single-character-class global replace is a character-wise bind). -/
def idFromFilename (name : String) : String :=
  "e_" ++ String.mk ((stripExtL name.data).flatMap
    (fun c => if isWordCh c then [c] else ['_']))

end Fixed

/-! ## Claim-side formulation of the key derivation (for C9) -/

/-- Modelled from the claim's words: "the file name with its extension
removed" — split at the last dot, drop the dot and what follows when what
follows is a nonempty run free of `/` (and of further dots, automatic for
the last dot); otherwise keep the name. -/
def claimStripExt (l : List Char) : List Char :=
  let rev := l.reverse
  match rev.dropWhile (fun c => c != '.' && c != '/'),
      rev.takeWhile (fun c => c != '.' && c != '/') with
  | '.' :: more, _ :: _ => more.reverse
  | _, _ => l

/-- Modelled from the claim's words: "every character outside
`[a-zA-Z0-9_-]` replaced by `_`", as a plain character map. -/
def claimSanitize (l : List Char) : List Char :=
  l.map (fun c => if isWordCh c then c else '_')

/-! ## Round-trip of the part_000 escaping chain -/

/-- Character-wise characterisation of `Part000.encodeP0L`: the later
replaces of the chain never touch the `%XX` text produced by an earlier
one, so the whole chain is one character-wise substitution. -/
def encCharP0 (c : Char) : List Char :=
  if c = '%' then "%25".data
  else if c = sglQ then "%27".data
  else if c = '#' then "%23".data
  else if c = '<' then "%3C".data
  else if c = '>' then "%3E".data
  else if isJsWs c then "%20".data
  else [c]

/-! ## Helpers for the decimal and color claims -/

/-- Substring test (for stating that an output no longer contains
`viewBox`). -/
def hasSub : List Char → List Char → Bool
  | l, pat =>
    if pat.isPrefixOf l then true
    else
      match l with
      | [] => false
      | _ :: cs => hasSub cs pat

/-- The integer part of a numeric literal: the digits before the dot. -/
def intPart (s : String) : String := String.mk (s.data.takeWhile (fun c => c != '.'))

/-! ## Equivalence of the key derivation with the claim's formulation (C9) -/

/-- The decomposition that makes the extension-stripping regex match. -/
def HasExt (l : List Char) : Prop :=
  ∃ a e : List Char, l = a ++ '.' :: e ∧ e ≠ [] ∧
    ∀ x ∈ e, (x != '.' && x != '/') = true

/-! ## Properties of the scan engine -/

theorem scanGo_isSome (mtch : Matcher) (h : MatcherOK mtch) :
    ∀ n l, l.length ≤ n → (scanGo mtch n l).isSome := by
  intro n
  induction n with
  | zero =>
    intro l hl
    cases l with
    | nil => simp [scanGo]
    | cons c cs => simp at hl
  | succ n ih =>
    intro l hl
    cases l with
    | nil => simp [scanGo]
    | cons c cs =>
      simp only [scanGo]
      cases htry : mtch (c :: cs) with
      | some pr =>
        obtain ⟨r, rest⟩ := pr
        have hlen := (h _ _ _ htry).1
        simp only [List.length_cons] at hlen hl
        have : rest.length ≤ n := by omega
        have := ih rest this
        simpa using this
      | none =>
        have : cs.length ≤ n := by
          simp only [List.length_cons] at hl; omega
        have := ih cs this
        simpa using this

theorem runScan_isSome (mtch : Matcher) (h : MatcherOK mtch) (l : List Char) :
    (runScan mtch l).isSome :=
  scanGo_isSome mtch h l.length l (Nat.le_refl _)

/-- Preservation: if the input characters satisfy `P` and every
replacement a match can emit (from an all-`P` input) satisfies `P`,
then the scan output satisfies `P`. -/
theorem scanGo_mem_pres (mtch : Matcher) (P : Char → Prop) (h : MatcherOK mtch)
    (hrepl : ∀ l r rest, mtch l = some (r, rest) → (∀ x ∈ l, P x) → ∀ c ∈ r, P c) :
    ∀ n l out, scanGo mtch n l = some out → (∀ x ∈ l, P x) → ∀ c ∈ out, P c := by
  intro n
  induction n with
  | zero =>
    intro l out hout hin c hc
    cases l with
    | nil => simp [scanGo] at hout; subst hout; simp at hc
    | cons a cs => simp [scanGo] at hout
  | succ n ih =>
    intro l out hout hin c hc
    cases l with
    | nil => simp [scanGo] at hout; subst hout; simp at hc
    | cons a cs =>
      simp only [scanGo] at hout
      cases htry : mtch (a :: cs) with
      | some pr =>
        obtain ⟨r, rest⟩ := pr
        rw [htry] at hout
        simp only [Option.map_eq_some'] at hout
        obtain ⟨out2, hout2, hEq⟩ := hout
        subst hEq
        rcases List.mem_append.mp hc with hcr | hco
        · exact hrepl _ _ _ htry hin c hcr
        · have hsub := (h _ _ _ htry).2
          have hin2 : ∀ x ∈ rest, P x := fun x hx => hin x (hsub.subset hx)
          exact ih rest out2 hout2 hin2 c hco
      | none =>
        rw [htry] at hout
        simp only [Option.map_eq_some'] at hout
        obtain ⟨out2, hout2, hEq⟩ := hout
        subst hEq
        rcases List.mem_cons.mp hc with hcg | hco
        · exact hcg ▸ hin a (List.mem_cons_self a cs)
        · have hin2 : ∀ x ∈ cs, P x := fun x hx => hin x (List.mem_cons_of_mem a hx)
          exact ih cs out2 hout2 hin2 c hco

/-- Establishment: if the matcher declines only on heads satisfying `P`
and every replacement satisfies `P`, the scan output satisfies `P`
with no condition on the input. -/
theorem scanGo_mem_estab (mtch : Matcher) (P : Char → Prop)
    (hnone : ∀ c cs, mtch (c :: cs) = none → P c)
    (hrepl : ∀ l r rest, mtch l = some (r, rest) → ∀ c ∈ r, P c) :
    ∀ n l out, scanGo mtch n l = some out → ∀ c ∈ out, P c := by
  intro n
  induction n with
  | zero =>
    intro l out hout c hc
    cases l with
    | nil => simp [scanGo] at hout; subst hout; simp at hc
    | cons a cs => simp [scanGo] at hout
  | succ n ih =>
    intro l out hout c hc
    cases l with
    | nil => simp [scanGo] at hout; subst hout; simp at hc
    | cons a cs =>
      simp only [scanGo] at hout
      cases htry : mtch (a :: cs) with
      | some pr =>
        obtain ⟨r, rest⟩ := pr
        rw [htry] at hout
        simp only [Option.map_eq_some'] at hout
        obtain ⟨out2, hout2, hEq⟩ := hout
        subst hEq
        rcases List.mem_append.mp hc with hcr | hco
        · exact hrepl _ _ _ htry c hcr
        · exact ih rest out2 hout2 c hco
      | none =>
        rw [htry] at hout
        simp only [Option.map_eq_some'] at hout
        obtain ⟨out2, hout2, hEq⟩ := hout
        subst hEq
        rcases List.mem_cons.mp hc with hcg | hco
        · exact hcg ▸ hnone a cs htry
        · exact ih cs out2 hout2 c hco

/-- If the matcher declines on every nonempty suffix of `l`, the scan is
the identity. -/
theorem scanGo_id (mtch : Matcher) :
    ∀ n l, (∀ c cs, (c :: cs) <:+ l → mtch (c :: cs) = none) → l.length ≤ n →
      scanGo mtch n l = some l := by
  intro n
  induction n with
  | zero =>
    intro l hnone hl
    cases l with
    | nil => simp [scanGo]
    | cons c cs => simp at hl
  | succ n ih =>
    intro l hnone hl
    cases l with
    | nil => simp [scanGo]
    | cons c cs =>
      simp only [scanGo]
      rw [hnone c cs (List.suffix_refl _)]
      have hcs : ∀ a as, (a :: as) <:+ cs → mtch (a :: as) = none := by
        intro a as hsuf
        exact hnone a as (hsuf.trans (List.suffix_cons c cs))
      have : cs.length ≤ n := by simp only [List.length_cons] at hl; omega
      rw [ih cs hcs this]
      rfl

/-! ## Soundness of the parser combinators -/

theorem lit_sound : ∀ p l r, lit p l = some r → r.length + p.length = l.length ∧ r <:+ l := by
  intro p
  induction p with
  | nil =>
    intro l r h
    simp [lit] at h
    subst h
    exact ⟨by simp, List.suffix_refl _⟩
  | cons a ps ih =>
    intro l r h
    cases l with
    | nil => simp [lit] at h
    | cons c cs =>
      simp only [lit] at h
      by_cases hc : c = a
      · rw [if_pos hc] at h
        obtain ⟨hlen, hsuf⟩ := ih cs r h
        exact ⟨by simp [List.length_cons]; omega, hsuf.trans (List.suffix_cons c cs)⟩
      · rw [if_neg hc] at h
        exact absurd h (by simp)

theorem litCI_sound : ∀ p l r, litCI p l = some r → r.length + p.length = l.length ∧ r <:+ l := by
  intro p
  induction p with
  | nil =>
    intro l r h
    simp [litCI] at h
    subst h
    exact ⟨by simp, List.suffix_refl _⟩
  | cons a ps ih =>
    intro l r h
    cases l with
    | nil => simp [litCI] at h
    | cons c cs =>
      simp only [litCI] at h
      by_cases hc : eqCI c a
      · rw [if_pos hc] at h
        obtain ⟨hlen, hsuf⟩ := ih cs r h
        exact ⟨by simp [List.length_cons]; omega, hsuf.trans (List.suffix_cons c cs)⟩
      · rw [if_neg hc] at h
        exact absurd h (by simp)

theorem lazySkipTo_sound (ok : Char → Bool) (stop : List Char → Option (List Char))
    (hstop : ∀ l r, stop l = some r → r.length < l.length ∧ r <:+ l) :
    ∀ l r, lazySkipTo ok stop l = some r → r.length < l.length ∧ r <:+ l := by
  intro l
  induction l with
  | nil =>
    intro r h
    simp only [lazySkipTo] at h
    exact hstop [] r h
  | cons c cs ih =>
    intro r h
    simp only [lazySkipTo] at h
    cases hs : stop (c :: cs) with
    | some rest =>
      rw [hs] at h
      simp at h
      subst h
      exact hstop _ _ hs
    | none =>
      rw [hs] at h
      by_cases hc : ok c
      · rw [if_pos hc] at h
        obtain ⟨hlen, hsuf⟩ := ih r h
        exact ⟨by simp [List.length_cons]; omega, hsuf.trans (List.suffix_cons c cs)⟩
      · rw [if_neg hc] at h
        exact absurd h (by simp)

theorem dropWhile_length_le (p : Char → Bool) (l : List Char) :
    (l.dropWhile p).length ≤ l.length := by
  induction l with
  | nil => simp [List.dropWhile]
  | cons c cs ih =>
    simp only [List.dropWhile]
    cases hc : p c
    · simp
    · simp only []
      simp [List.length_cons]
      omega

theorem dropWhile_suffix (p : Char → Bool) (l : List Char) :
    l.dropWhile p <:+ l := by
  induction l with
  | nil => simp [List.dropWhile]
  | cons c cs ih =>
    simp only [List.dropWhile]
    cases hc : p c
    · simp
    · simp only []
      exact ih.trans (List.suffix_cons c cs)

theorem dropWs_sound (l : List Char) : (dropWs l).length ≤ l.length ∧ dropWs l <:+ l :=
  ⟨dropWhile_length_le _ l, dropWhile_suffix _ l⟩

theorem pseq_le_le {f g : Consumer} (hf : ConsumerLE f) (hg : ConsumerLE g) :
    ConsumerLE (pseq f g) := by
  intro l r h
  simp only [pseq, Option.bind_eq_some] at h
  obtain ⟨m, hm, hr⟩ := h
  obtain ⟨h1, s1⟩ := hf l m hm
  obtain ⟨h2, s2⟩ := hg m r hr
  exact ⟨by omega, s2.trans s1⟩

theorem pseq_lt_le {f g : Consumer} (hf : ConsumerLT f) (hg : ConsumerLE g) :
    ConsumerLT (pseq f g) := by
  intro l r h
  simp only [pseq, Option.bind_eq_some] at h
  obtain ⟨m, hm, hr⟩ := h
  obtain ⟨h1, s1⟩ := hf l m hm
  obtain ⟨h2, s2⟩ := hg m r hr
  exact ⟨by omega, s2.trans s1⟩

theorem pseq_le_lt {f g : Consumer} (hf : ConsumerLE f) (hg : ConsumerLT g) :
    ConsumerLT (pseq f g) := by
  intro l r h
  simp only [pseq, Option.bind_eq_some] at h
  obtain ⟨m, hm, hr⟩ := h
  obtain ⟨h1, s1⟩ := hf l m hm
  obtain ⟨h2, s2⟩ := hg m r hr
  exact ⟨by omega, s2.trans s1⟩

theorem consumerLE_of_LT {f : Consumer} (hf : ConsumerLT f) : ConsumerLE f := by
  intro l r h
  obtain ⟨h1, s1⟩ := hf l r h
  exact ⟨by omega, s1⟩

theorem litC_lt {pat : List Char} (hp : pat ≠ []) : ConsumerLT (litC pat) := by
  intro l r h
  obtain ⟨h1, s1⟩ := lit_sound pat l r h
  have : 0 < pat.length := List.length_pos.mpr hp
  exact ⟨by omega, s1⟩

theorem litCIc_lt {pat : List Char} (hp : pat ≠ []) : ConsumerLT (litCIc pat) := by
  intro l r h
  obtain ⟨h1, s1⟩ := litCI_sound pat l r h
  have : 0 < pat.length := List.length_pos.mpr hp
  exact ⟨by omega, s1⟩

theorem skipWsC_le : ConsumerLE skipWsC := by
  intro l r h
  simp only [skipWsC, Option.some_inj] at h
  subst h
  exact dropWs_sound l

theorem dropUntilC_le (ch : Char) : ConsumerLE (dropUntilC ch) := by
  intro l r h
  simp only [dropUntilC, Option.some_inj] at h
  subst h
  exact ⟨dropWhile_length_le _ l, dropWhile_suffix _ l⟩

theorem lazyAnyTo_lt {stop : Consumer} (hs : ConsumerLT stop) : ConsumerLT (lazyAnyTo stop) :=
  fun l r h => lazySkipTo_sound _ stop hs l r h

theorem lazyDotTo_lt {stop : Consumer} (hs : ConsumerLT stop) : ConsumerLT (lazyDotTo stop) :=
  fun l r h => lazySkipTo_sound _ stop hs l r h

theorem wsPlus_lt : ConsumerLT wsPlus := by
  intro l r h
  cases l with
  | nil => simp [wsPlus] at h
  | cons c cs =>
    simp only [wsPlus] at h
    by_cases hc : isJsWs c
    · rw [if_pos hc] at h
      simp only [Option.some_inj] at h
      subst h
      refine ⟨?_, (dropWhile_suffix _ cs).trans (List.suffix_cons c cs)⟩
      have := dropWhile_length_le isJsWs cs
      simp [List.length_cons]
      omega
    · rw [if_neg hc] at h
      exact absurd h (by simp)

theorem constRepl_ok {repl : List Char} {f : Consumer} (hf : ConsumerLT f) :
    MatcherOK (constRepl repl f) := by
  intro l r rest h
  simp only [constRepl, Option.map_eq_some'] at h
  obtain ⟨m, hm, hEq⟩ := h
  cases hEq
  exact hf l rest hm

theorem xmlTail_lt : ConsumerLT xmlTail := by
  intro l
  induction l with
  | nil => intro r h; simp [xmlTail] at h
  | cons c cs ih =>
    intro r h
    simp only [xmlTail] at h
    by_cases h1 : c = '>'
    · rw [if_pos h1] at h; exact absurd h (by simp)
    · rw [if_neg h1] at h
      by_cases h2 : c = '?' && cs.head? = some '>'
      · rw [if_pos h2] at h
        simp only [Option.some_inj] at h
        subst h
        have hne : cs ≠ [] := by
          intro hnil
          rw [hnil] at h2
          simp at h2
        refine ⟨?_, (List.tail_suffix cs).trans (List.suffix_cons c cs)⟩
        have : cs.tail.length = cs.length - 1 := by simp [List.length_tail]
        have : 0 < cs.length := List.length_pos.mpr hne
        simp [List.length_tail, List.length_cons]
        omega
      · rw [if_neg h2] at h
        obtain ⟨hl, hs⟩ := ih r h
        exact ⟨by simp [List.length_cons]; omega, hs.trans (List.suffix_cons c cs)⟩

/-! ## Well-formedness of the matchers -/

theorem tryDecimal_ok : MatcherOK tryDecimal := by
  intro l r rest h
  simp only [tryDecimal] at h
  split at h
  · exact absurd h (by simp)
  · split at h
    next c cs hdrop =>
      split at h
      · split at h
        · simp only [Option.some_inj, Prod.mk.injEq] at h
          obtain ⟨hrepl, hrest⟩ := h
          subst hrest
          have hsA : l.dropWhile isDigitCh <:+ l := dropWhile_suffix _ l
          have hsB : cs <:+ c :: cs := List.suffix_cons c cs
          have hsC : cs.dropWhile isDigitCh <:+ cs := dropWhile_suffix _ cs
          have hsuf : cs.dropWhile isDigitCh <:+ l := hsC.trans (hsB.trans (hdrop ▸ hsA))
          refine ⟨?_, hsuf⟩
          have hlenA := (hdrop ▸ dropWhile_length_le isDigitCh l : (c :: cs).length ≤ l.length)
          have hlenC := dropWhile_length_le isDigitCh cs
          simp only [List.length_cons] at hlenA
          omega
        · exact absurd h (by simp)
      · exact absurd h (by simp)
    next hdrop => exact absurd h (by simp)

theorem tryPathLetter_ok : MatcherOK tryPathLetter := by
  intro l r rest h
  simp only [tryPathLetter] at h
  split at h
  next hdrop => exact absurd h (by simp)
  next c cs hdrop =>
    split at h
    · simp only [Option.some_inj, Prod.mk.injEq] at h
      obtain ⟨hrepl, hrest⟩ := h
      subst hrest
      have hsA : dropWs l <:+ l := (dropWs_sound l).2
      have hsB : cs <:+ c :: cs := List.suffix_cons c cs
      have hsC : dropWs cs <:+ cs := (dropWs_sound cs).2
      refine ⟨?_, hsC.trans (hsB.trans (hdrop ▸ hsA))⟩
      have hlenA := (hdrop ▸ (dropWs_sound l).1 : (c :: cs).length ≤ l.length)
      have hlenC := (dropWs_sound cs).1
      simp only [List.length_cons] at hlenA
      omega
    · exact absurd h (by simp)

theorem tryRgb_ok : MatcherOK tryRgb := by
  intro l r rest h
  simp only [tryRgb] at h
  split at h
  next h0 => exact absurd h (by simp)
  next l1 h0 =>
    obtain ⟨hlen0, hsuf0⟩ := litCI_sound _ l l1 h0
    split at h
    · exact absurd h (by simp)
    · split at h
      next h1 => exact absurd h (by simp)
      next l3 h1 =>
        obtain ⟨hlen1, hsuf1⟩ := lit_sound _ _ l3 h1
        split at h
        · exact absurd h (by simp)
        · split at h
          next h2 => exact absurd h (by simp)
          next l5 h2 =>
            obtain ⟨hlen2, hsuf2⟩ := lit_sound _ _ l5 h2
            split at h
            · exact absurd h (by simp)
            · split at h
              next h3 => exact absurd h (by simp)
              next rest2 h3 =>
                simp only [Option.some_inj, Prod.mk.injEq] at h
                obtain ⟨hrepl, hrest⟩ := h
                subst hrest
                obtain ⟨hlen3, hsuf3⟩ := lit_sound _ _ rest2 h3
                have c1 : dropWs ((dropWs l1).dropWhile isDigitCh) <:+ l1 :=
                  ((dropWs_sound _).2.trans (dropWhile_suffix _ _)).trans (dropWs_sound l1).2
                have c2 : dropWs ((dropWs l3).dropWhile isDigitCh) <:+ l3 :=
                  ((dropWs_sound _).2.trans (dropWhile_suffix _ _)).trans (dropWs_sound l3).2
                have c3 : dropWs ((dropWs l5).dropWhile isDigitCh) <:+ l5 :=
                  ((dropWs_sound _).2.trans (dropWhile_suffix _ _)).trans (dropWs_sound l5).2
                refine ⟨?_, (((hsuf3.trans c3).trans (hsuf2.trans c2)).trans
                  (hsuf1.trans c1)).trans hsuf0⟩
                have := c1.length_le
                have := c2.length_le
                have := c3.length_le
                simp only [List.length_cons, List.length_nil] at hlen1 hlen2 hlen3
                have hp : "rgb(".data.length = 4 := by decide
                rw [hp] at hlen0
                omega

theorem tryHexPair_ok : MatcherOK tryHexPair := by
  intro l r rest h
  match l, h with
  | a :: b :: c :: d :: e :: f :: g :: rest2, h =>
    simp only [tryHexPair] at h
    by_cases hc : (a = '#' && isHexCI b && eqCI c b && isHexCI d && eqCI e d &&
       isHexCI f && eqCI g f) = true
    · rw [if_pos hc] at h
      simp only [Option.some_inj, Prod.mk.injEq] at h
      obtain ⟨hrepl, hrest⟩ := h
      subst hrest
      constructor
      · simp [List.length_cons]; omega
      · refine List.IsSuffix.trans ?_ (List.suffix_cons a _)
        refine List.IsSuffix.trans ?_ (List.suffix_cons b _)
        refine List.IsSuffix.trans ?_ (List.suffix_cons c _)
        refine List.IsSuffix.trans ?_ (List.suffix_cons d _)
        refine List.IsSuffix.trans ?_ (List.suffix_cons e _)
        refine List.IsSuffix.trans ?_ (List.suffix_cons f _)
        exact List.suffix_cons g _
    · rw [if_neg hc] at h; exact absurd h (by simp)

theorem tryTransform0_ok : MatcherOK tryTransform0 := by
  intro l r rest h
  simp only [tryTransform0] at h
  split at h
  next h0 => exact absurd h (by simp)
  next l1 h0 =>
    obtain ⟨hlen0, hsuf0⟩ := lit_sound _ l l1 h0
    have hpat : ("transform=".data ++ [sglQ] ++ "translate(0".data).length = 22 := by decide
    rw [hpat] at hlen0
    have htail : (if l1.head? = some ',' then l1.tail else l1) <:+ l1 := by
      by_cases hh : l1.head? = some ','
      · rw [if_pos hh]; exact List.tail_suffix l1
      · rw [if_neg hh]
    have hdsuf : dropWs (if l1.head? = some ',' then l1.tail else l1) <:+ l1 :=
      (dropWs_sound _).2.trans htail
    split at h
    next c c2 rest3 h3 =>
      have hdl : (c :: c2 :: rest3).length ≤ l1.length := h3 ▸ hdsuf.length_le
      simp only [List.length_cons] at hdl
      split at h
      · simp only [Option.some_inj, Prod.mk.injEq] at h
        obtain ⟨hrepl, hrest⟩ := h
        have hs : rest3 <:+ c :: c2 :: rest3 :=
          (List.suffix_cons c2 rest3).trans (List.suffix_cons c _)
        rw [← hrest]
        exact ⟨by omega, ((hs.trans (h3 ▸ hdsuf)).trans hsuf0)⟩
      · split at h
        · simp only [Option.some_inj, Prod.mk.injEq] at h
          obtain ⟨hrepl, hrest⟩ := h
          have hs : rest3.tail <:+ c :: c2 :: rest3 :=
            ((List.tail_suffix rest3).trans (List.suffix_cons c2 rest3)).trans
              (List.suffix_cons c _)
          rw [← hrest]
          refine ⟨?_, ((hs.trans (h3 ▸ hdsuf)).trans hsuf0)⟩
          have := List.length_tail rest3
          omega
        · exact absurd h (by simp)
    next h3 => exact absurd h (by simp)

theorem tryXmlDecl_ok : MatcherOK tryXmlDecl :=
  constRepl_ok (pseq_lt_le (litC_lt (by decide)) (consumerLE_of_LT xmlTail_lt))

theorem tryComment_ok : MatcherOK tryComment :=
  constRepl_ok (pseq_lt_le (litC_lt (by decide))
    (consumerLE_of_LT (lazyAnyTo_lt (litC_lt (by decide)))))

theorem tryElemCI_ok (name : List Char) : MatcherOK (tryElemCI name) :=
  constRepl_ok (pseq_lt_le (litCIc_lt (by simp))
    (consumerLE_of_LT (lazyAnyTo_lt (litCIc_lt (by simp)))))

theorem tryXmlnsLazy_ok : MatcherOK tryXmlnsLazy :=
  constRepl_ok (pseq_le_lt skipWsC_le (pseq_lt_le (litC_lt (by decide))
    (consumerLE_of_LT (pseq_lt_le (lazyDotTo_lt (litC_lt (by simp)))
      (consumerLE_of_LT (lazyDotTo_lt (litC_lt (by simp))))))))

theorem tryAttrLazy_ok (pat : List Char) (hp : pat ≠ []) : MatcherOK (tryAttrLazy pat) :=
  constRepl_ok (pseq_le_lt skipWsC_le (pseq_lt_le (litC_lt hp)
    (consumerLE_of_LT (lazyDotTo_lt (litC_lt (by simp))))))

theorem tryXmlnsGreedy_ok : MatcherOK tryXmlnsGreedy :=
  constRepl_ok (pseq_le_lt skipWsC_le (pseq_lt_le (litC_lt (by decide))
    (pseq_le_le (dropUntilC_le _) (consumerLE_of_LT (pseq_lt_le (litC_lt (by simp))
      (pseq_le_le (dropUntilC_le _) (consumerLE_of_LT (litC_lt (by simp)))))))))

theorem tryAttrGreedy_ok (pat : List Char) (hp : pat ≠ []) : MatcherOK (tryAttrGreedy pat) :=
  constRepl_ok (pseq_le_lt skipWsC_le (pseq_lt_le (litC_lt hp)
    (pseq_le_le (dropUntilC_le _) (consumerLE_of_LT (litC_lt (by simp))))))

theorem tryWsCollapse_ok : MatcherOK tryWsCollapse := constRepl_ok wsPlus_lt

theorem tryGtLtGap_ok : MatcherOK tryGtLtGap :=
  constRepl_ok (pseq_lt_le (litC_lt (by simp))
    (consumerLE_of_LT (pseq_lt_le wsPlus_lt (consumerLE_of_LT (litC_lt (by simp))))))

theorem tryEqTrim_ok : MatcherOK tryEqTrim :=
  constRepl_ok (pseq_le_lt skipWsC_le (pseq_lt_le (litC_lt (by simp)) skipWsC_le))

theorem tryWsLit_ok (pat : List Char) (hp : pat ≠ []) : MatcherOK (tryWsLit pat) :=
  constRepl_ok (pseq_le_lt skipWsC_le (litC_lt hp))

theorem tryVersion_ok : MatcherOK tryVersion :=
  constRepl_ok (pseq_le_lt skipWsC_le (pseq_lt_le (litC_lt (by simp))
    (pseq_le_le (dropUntilC_le _) (consumerLE_of_LT (litC_lt (by simp))))))

theorem tryEmptyG_ok : MatcherOK tryEmptyG :=
  constRepl_ok (pseq_lt_le (litC_lt (by decide))
    (consumerLE_of_LT (pseq_le_lt (dropUntilC_le _) (pseq_lt_le (litC_lt (by simp))
      (consumerLE_of_LT (pseq_le_lt skipWsC_le (litC_lt (by decide))))))))

/-! ## Totality of the optimizer pipelines -/

theorem scanStep_isSome {mtch : Matcher} (h : MatcherOK mtch) {o : Option (List Char)}
    (ho : o.isSome) : (scanStep mtch o).isSome := by
  obtain ⟨l, rfl⟩ := Option.isSome_iff_exists.mp ho
  simpa [scanStep] using runScan_isSome mtch h l

theorem mapStep_isSome {f : List Char → List Char} {o : Option (List Char)}
    (ho : o.isSome) : (mapStep f o).isSome := by
  obtain ⟨l, rfl⟩ := Option.isSome_iff_exists.mp ho
  simp [mapStep]

namespace Part000

theorem ultraOptimizeL_isSome (l : List Char) : (ultraOptimizeL l).isSome := by
  unfold ultraOptimizeL
  apply scanStep_isSome tryEmptyG_ok
  apply scanStep_isSome tryTransform0_ok
  apply scanStep_isSome tryVersion_ok
  apply mapStep_isSome
  apply mapStep_isSome
  apply scanStep_isSome (tryWsLit_ok _ (by decide))
  apply scanStep_isSome (tryWsLit_ok _ (by decide))
  apply scanStep_isSome (tryWsLit_ok _ (by decide))
  apply scanStep_isSome (tryWsLit_ok _ (by decide))
  apply scanStep_isSome tryHexPair_ok
  apply scanStep_isSome tryRgb_ok
  apply scanStep_isSome tryEqTrim_ok
  apply scanStep_isSome tryGtLtGap_ok
  apply scanStep_isSome tryWsCollapse_ok
  apply scanStep_isSome tryPathLetter_ok
  apply scanStep_isSome tryDecimal_ok
  apply scanStep_isSome (tryAttrLazy_ok _ (by decide))
  apply scanStep_isSome (tryAttrLazy_ok _ (by decide))
  apply scanStep_isSome (tryAttrLazy_ok _ (by decide))
  apply scanStep_isSome tryXmlnsLazy_ok
  apply scanStep_isSome (tryElemCI_ok _)
  apply scanStep_isSome (tryElemCI_ok _)
  apply scanStep_isSome (tryElemCI_ok _)
  apply scanStep_isSome tryComment_ok
  apply scanStep_isSome tryXmlDecl_ok
  rfl

end Part000

namespace Fixed

theorem optimizeL_isSome (l : List Char) : (optimizeL l).isSome := by
  unfold optimizeL
  apply scanStep_isSome (tryWsLit_ok _ (by decide))
  apply scanStep_isSome (tryWsLit_ok _ (by decide))
  apply scanStep_isSome (tryWsLit_ok _ (by decide))
  apply scanStep_isSome tryHexPair_ok
  apply scanStep_isSome tryRgb_ok
  apply mapStep_isSome
  apply scanStep_isSome tryEqTrim_ok
  apply scanStep_isSome tryGtLtGap_ok
  apply scanStep_isSome tryWsCollapse_ok
  apply scanStep_isSome tryDecimal_ok
  apply scanStep_isSome (tryAttrGreedy_ok _ (by decide))
  apply scanStep_isSome (tryAttrGreedy_ok _ (by decide))
  apply scanStep_isSome tryXmlnsGreedy_ok
  apply scanStep_isSome (tryElemCI_ok _)
  apply scanStep_isSome (tryElemCI_ok _)
  apply scanStep_isSome (tryElemCI_ok _)
  apply scanStep_isSome tryComment_ok
  apply scanStep_isSome tryXmlDecl_ok
  rfl

end Fixed

/-! ## Round-trip of the part_000 escaping chain -/

theorem encodeP0L_append (l1 l2 : List Char) :
    Part000.encodeP0L (l1 ++ l2) = Part000.encodeP0L l1 ++ Part000.encodeP0L l2 := by
  simp [Part000.encodeP0L, List.flatMap_append]

theorem encodeP0L_singleton (c : Char) : Part000.encodeP0L [c] = encCharP0 c := by
  by_cases h1 : c = '%'
  · subst h1; decide
  · by_cases h2 : c = sglQ
    · subst h2; decide
    · by_cases h3 : c = '#'
      · subst h3; decide
      · by_cases h4 : c = '<'
        · subst h4; decide
        · by_cases h5 : c = '>'
          · subst h5; decide
          · by_cases h6 : isJsWs c = true
            · simp [Part000.encodeP0L, encCharP0, h1, h2, h3, h4, h5, h6]
            · simp [Part000.encodeP0L, encCharP0, h1, h2, h3, h4, h5, h6]

theorem encodeP0L_eq_flatMap (l : List Char) :
    Part000.encodeP0L l = l.flatMap encCharP0 := by
  induction l with
  | nil => decide
  | cons c cs ih =>
    have : c :: cs = [c] ++ cs := rfl
    rw [this, encodeP0L_append, List.flatMap_append, encodeP0L_singleton, ih]
    simp

theorem percentDecodeL_esc (a b : Char) (rest : List Char)
    (ha : isHexCI a = true) (hb : isHexCI b = true) :
    percentDecodeL ('%' :: a :: b :: rest) =
      Char.ofNat (16 * hexVal a + hexVal b) :: percentDecodeL rest := by
  simp [percentDecodeL, ha, hb]

theorem percentDecodeL_other (c : Char) (rest : List Char) (h : c ≠ '%') :
    percentDecodeL (c :: rest) = c :: percentDecodeL rest := by
  cases rest with
  | nil => simp [percentDecodeL, h]
  | cons a rest2 =>
    cases rest2 with
    | nil => simp [percentDecodeL, h]
    | cons b rest3 => simp [percentDecodeL, h]

/-- Decoding inverts the part_000 escaping chain on any string whose only
whitespace character is the plain space (every optimizer output, since the
whitespace collapse leaves only spaces). -/
theorem percentDecodeL_encodeP0L (l : List Char)
    (hws : ∀ c ∈ l, isJsWs c = true → c = ' ') :
    percentDecodeL (Part000.encodeP0L l) = l := by
  induction l with
  | nil => decide
  | cons c cs ih =>
    have hcs : ∀ x ∈ cs, isJsWs x = true → x = ' ' :=
      fun x hx => hws x (List.mem_cons_of_mem c hx)
    have hrec := ih hcs
    have hcons : c :: cs = [c] ++ cs := rfl
    rw [hcons, encodeP0L_append, encodeP0L_singleton]
    by_cases h1 : c = '%'
    · subst h1
      have : encCharP0 '%' = ['%', '2', '5'] := by decide
      rw [this]
      rw [show ('%' :: '2' :: '5' :: []) ++ Part000.encodeP0L cs =
        '%' :: '2' :: '5' :: Part000.encodeP0L cs from rfl]
      rw [percentDecodeL_esc _ _ _ (by decide) (by decide), hrec]
      norm_num [hexVal]
      decide
    · by_cases h2 : c = sglQ
      · subst h2
        have : encCharP0 sglQ = ['%', '2', '7'] := by decide
        rw [this]
        rw [show ('%' :: '2' :: '7' :: []) ++ Part000.encodeP0L cs =
          '%' :: '2' :: '7' :: Part000.encodeP0L cs from rfl]
        rw [percentDecodeL_esc _ _ _ (by decide) (by decide), hrec]
        norm_num [hexVal]
        decide
      · by_cases h3 : c = '#'
        · subst h3
          have : encCharP0 '#' = ['%', '2', '3'] := by decide
          rw [this]
          rw [show ('%' :: '2' :: '3' :: []) ++ Part000.encodeP0L cs =
            '%' :: '2' :: '3' :: Part000.encodeP0L cs from rfl]
          rw [percentDecodeL_esc _ _ _ (by decide) (by decide), hrec]
          norm_num [hexVal]
          decide
        · by_cases h4 : c = '<'
          · subst h4
            have : encCharP0 '<' = ['%', '3', 'C'] := by decide
            rw [this]
            rw [show ('%' :: '3' :: 'C' :: []) ++ Part000.encodeP0L cs =
              '%' :: '3' :: 'C' :: Part000.encodeP0L cs from rfl]
            rw [percentDecodeL_esc _ _ _ (by decide) (by decide), hrec]
            norm_num [hexVal]
            decide
          · by_cases h5 : c = '>'
            · subst h5
              have : encCharP0 '>' = ['%', '3', 'E'] := by decide
              rw [this]
              rw [show ('%' :: '3' :: 'E' :: []) ++ Part000.encodeP0L cs =
                '%' :: '3' :: 'E' :: Part000.encodeP0L cs from rfl]
              rw [percentDecodeL_esc _ _ _ (by decide) (by decide), hrec]
              norm_num [hexVal]
              decide
            · by_cases h6 : isJsWs c = true
              · have hsp : c = ' ' := hws c (List.mem_cons_self c cs) h6
                subst hsp
                have : encCharP0 ' ' = ['%', '2', '0'] := by decide
                rw [this]
                rw [show ('%' :: '2' :: '0' :: []) ++ Part000.encodeP0L cs =
                  '%' :: '2' :: '0' :: Part000.encodeP0L cs from rfl]
                rw [percentDecodeL_esc _ _ _ (by decide) (by decide), hrec]
                norm_num [hexVal]
                decide
              · have : encCharP0 c = [c] := by
                  simp [encCharP0, h1, h2, h3, h4, h5, h6]
                rw [this]
                rw [show ([c] ++ Part000.encodeP0L cs : List Char) =
                  c :: Part000.encodeP0L cs from rfl]
                rw [percentDecodeL_other c _ h1, hrec]
                rfl

/-! ## Character invariants of the optimizer output -/

theorem runScan_pres (P : Char → Prop) {mtch : Matcher} (hok : MatcherOK mtch)
    (hrepl : ∀ l r rest, mtch l = some (r, rest) → (∀ x ∈ l, P x) → ∀ c ∈ r, P c)
    {l out : List Char} (h : runScan mtch l = some out) (hin : ∀ x ∈ l, P x) :
    ∀ c ∈ out, P c :=
  scanGo_mem_pres mtch P hok hrepl l.length l out h hin

theorem runScan_estab (P : Char → Prop) {mtch : Matcher}
    (hnone : ∀ c cs, mtch (c :: cs) = none → P c)
    (hrepl : ∀ l r rest, mtch l = some (r, rest) → ∀ c ∈ r, P c)
    {l out : List Char} (h : runScan mtch l = some out) : ∀ c ∈ out, P c :=
  scanGo_mem_estab mtch P hnone hrepl l.length l out h

theorem constRepl_shape {repl : List Char} {f : Consumer} {l r rest : List Char}
    (h : constRepl repl f l = some (r, rest)) : r = repl := by
  simp only [constRepl, Option.map_eq_some'] at h
  obtain ⟨m, hm, hEq⟩ := h
  cases hEq
  rfl

theorem hexDigitChar_not_ws (n : Nat) : isJsWs (hexDigitChar n) = false := by
  match n with
  | 0 => decide
  | 1 => decide
  | 2 => decide
  | 3 => decide
  | 4 => decide
  | 5 => decide
  | 6 => decide
  | 7 => decide
  | 8 => decide
  | 9 => decide
  | 10 => decide
  | 11 => decide
  | 12 => decide
  | 13 => decide
  | 14 => decide
  | m + 15 => rfl

theorem natToHexAux_not_ws : ∀ fuel n, ∀ c ∈ natToHexAux fuel n, isJsWs c = false := by
  intro fuel
  induction fuel with
  | zero => intro n c hc; simp [natToHexAux] at hc
  | succ fuel ih =>
    intro n c hc
    rw [natToHexAux] at hc
    by_cases h : n < 16
    · rw [if_pos h] at hc
      simp only [List.mem_singleton] at hc
      subst hc
      exact hexDigitChar_not_ws n
    · rw [if_neg h] at hc
      rcases List.mem_append.mp hc with h1 | h1
      · exact ih (n / 16) c h1
      · simp only [List.mem_singleton] at h1
        subst h1
        exact hexDigitChar_not_ws (n % 16)

theorem natToHexL_not_ws : ∀ n, ∀ c ∈ natToHexL n, isJsWs c = false :=
  fun n => natToHexAux_not_ws (n + 1) n

theorem pad2Hex_not_ws (n : Nat) : ∀ c ∈ pad2Hex n, isJsWs c = false := by
  intro c hc
  simp only [pad2Hex] at hc
  by_cases h : (natToHexL n).length < 2
  · rw [if_pos h] at hc
    rcases List.mem_cons.mp hc with h1 | h1
    · subst h1; decide
    · exact natToHexL_not_ws n c h1
  · rw [if_neg h] at hc
    exact natToHexL_not_ws n c hc

theorem isHexCI_not_ws {c : Char} (h : isHexCI c = true) : isJsWs c = false := by
  simp only [isHexCI, Bool.or_eq_true, Bool.and_eq_true, decide_eq_true_eq] at h
  simp only [isJsWs, Bool.or_eq_false_iff, Bool.and_eq_false_iff,
    decide_eq_false_iff_not]
  omega

theorem tryRgb_repl_shape {l r rest : List Char} (h : tryRgb l = some (r, rest)) :
    ∃ a b c : Nat, r = '#' :: (pad2Hex a ++ pad2Hex b ++ pad2Hex c) := by
  simp only [tryRgb] at h
  split at h
  · exact absurd h (by simp)
  · split at h
    · exact absurd h (by simp)
    · split at h
      · exact absurd h (by simp)
      · split at h
        · exact absurd h (by simp)
        · split at h
          · exact absurd h (by simp)
          · split at h
            · exact absurd h (by simp)
            · split at h
              · exact absurd h (by simp)
              · simp only [Option.some_inj, Prod.mk.injEq] at h
                exact ⟨_, _, _, h.1.symm⟩

theorem tryHexPair_repl_shape {l r rest : List Char} (h : tryHexPair l = some (r, rest)) :
    ∃ b d f : Char, isHexCI b = true ∧ isHexCI d = true ∧ isHexCI f = true ∧
      r = ['#', b, d, f] := by
  match l, h with
  | a :: b :: c :: d :: e :: f :: g :: rest2, h =>
    simp only [tryHexPair] at h
    split at h
    · next hc =>
      simp only [Bool.and_eq_true, decide_eq_true_eq] at hc
      simp only [Option.some_inj, Prod.mk.injEq] at h
      exact ⟨b, d, f, hc.1.1.1.1.1.2, hc.1.1.1.2, hc.1.2, h.1.symm⟩
    · exact absurd h (by simp)

theorem tryTransform0_repl_shape {l r rest : List Char}
    (h : tryTransform0 l = some (r, rest)) : r = [] := by
  simp only [tryTransform0] at h
  split at h
  · exact absurd h (by simp)
  · split at h
    · split at h
      · simp only [Option.some_inj, Prod.mk.injEq] at h
        exact h.1.symm
      · split at h
        · simp only [Option.some_inj, Prod.mk.injEq] at h
          exact h.1.symm
        · exact absurd h (by simp)
    · exact absurd h (by simp)

theorem quoteSwapL_mem {c : Char} {l : List Char} (h : c ∈ quoteSwapL l) :
    c = sglQ ∨ c ∈ l := by
  simp only [quoteSwapL, List.mem_flatMap] at h
  obtain ⟨a, ha, hc⟩ := h
  by_cases hq : a = dblQ
  · rw [if_pos hq] at hc
    simp only [List.mem_singleton] at hc
    exact Or.inl hc
  · rw [if_neg hq] at hc
    simp only [List.mem_singleton] at hc
    exact Or.inr (hc ▸ ha)

theorem quoteSwapL_no_dq {c : Char} {l : List Char} (h : c ∈ quoteSwapL l) :
    c ≠ dblQ := by
  simp only [quoteSwapL, List.mem_flatMap] at h
  obtain ⟨a, ha, hc⟩ := h
  by_cases hq : a = dblQ
  · rw [if_pos hq] at hc
    simp only [List.mem_singleton] at hc
    subst hc
    decide
  · rw [if_neg hq] at hc
    simp only [List.mem_singleton] at hc
    exact hc ▸ hq

theorem jsTrimL_subset {c : Char} {l : List Char} (h : c ∈ jsTrimL l) : c ∈ l := by
  simp only [jsTrimL] at h
  rw [List.mem_reverse] at h
  have h2 := (dropWhile_suffix isJsWs _).subset h
  rw [List.mem_reverse] at h2
  exact (dropWhile_suffix isJsWs _).subset h2

theorem constRepl_hrepl (P : Char → Prop) {repl : List Char} {f : Consumer}
    (hchars : ∀ c ∈ repl, P c) :
    ∀ l r rest, constRepl repl f l = some (r, rest) → ∀ c ∈ r, P c :=
  fun _ _ _ h c hc => hchars c (constRepl_shape h ▸ hc)

/-- After the whitespace collapse, part_000's pipeline output contains
no whitespace other than the plain space, and after the quote conversion
it contains no double quote; the remaining passes only delete text or
insert characters with the same property. -/
theorem ultraOptimizeL_chars {l out : List Char} (h : Part000.ultraOptimizeL l = some out) :
    ∀ c ∈ out, (isJsWs c = true → c = ' ') ∧ c ≠ dblQ := by
  simp only [Part000.ultraOptimizeL, scanStep, mapStep] at h
  rcases Option.bind_eq_some.mp h with ⟨a1, h1, hG⟩
  rcases Option.bind_eq_some.mp h1 with ⟨a2, h2, hT⟩
  rcases Option.bind_eq_some.mp h2 with ⟨a3, h3, hV⟩
  rcases Option.map_eq_some'.mp h3 with ⟨a4, h4, hTrim⟩
  rcases Option.map_eq_some'.mp h4 with ⟨a5, h5, hQ⟩
  rcases Option.bind_eq_some.mp h5 with ⟨a6, h6, hW4⟩
  rcases Option.bind_eq_some.mp h6 with ⟨a7, h7, hW3⟩
  rcases Option.bind_eq_some.mp h7 with ⟨a8, h8, hW2⟩
  rcases Option.bind_eq_some.mp h8 with ⟨a9, h9, hW1⟩
  rcases Option.bind_eq_some.mp h9 with ⟨a10, h10, hHex⟩
  rcases Option.bind_eq_some.mp h10 with ⟨a11, h11, hRgb⟩
  rcases Option.bind_eq_some.mp h11 with ⟨a12, h12, hEq2⟩
  rcases Option.bind_eq_some.mp h12 with ⟨a13, h13, hGt⟩
  rcases Option.bind_eq_some.mp h13 with ⟨a14, h14, hColl⟩
  -- whitespace-only-space holds from the collapse output a13 on
  have P13 : ∀ c ∈ a13, isJsWs c = true → c = ' ' := by
    refine runScan_estab _ ?_ ?_ hColl
    · intro c cs hnone hws
      exfalso
      simp only [tryWsCollapse, constRepl, wsPlus, hws] at hnone
      simp at hnone
    · refine constRepl_hrepl _ ?_
      intro c hc _
      simp only [List.mem_singleton] at hc
      exact hc
  have P12 : ∀ c ∈ a12, isJsWs c = true → c = ' ' :=
    runScan_pres _ tryGtLtGap_ok
      (fun l' r rest hr _ => constRepl_hrepl _ (by decide) l' r rest hr) hGt P13
  have P11 : ∀ c ∈ a11, isJsWs c = true → c = ' ' :=
    runScan_pres _ tryEqTrim_ok
      (fun l' r rest hr _ => constRepl_hrepl _ (by decide) l' r rest hr) hEq2 P12
  have P10 : ∀ c ∈ a10, isJsWs c = true → c = ' ' := by
    refine runScan_pres _ tryRgb_ok ?_ hRgb P11
    intro l' r rest hr _ c hc
    obtain ⟨x, y, z, hshape⟩ := tryRgb_repl_shape hr
    subst hshape
    rcases List.mem_cons.mp hc with h1 | h1
    · subst h1; intro hws; exact absurd hws (by decide)
    · intro hws
      exfalso
      rcases List.mem_append.mp h1 with h2 | h2
      · rcases List.mem_append.mp h2 with h3 | h3
        · rw [pad2Hex_not_ws x c h3] at hws; exact Bool.false_ne_true hws
        · rw [pad2Hex_not_ws y c h3] at hws; exact Bool.false_ne_true hws
      · rw [pad2Hex_not_ws z c h2] at hws; exact Bool.false_ne_true hws
  have P9 : ∀ c ∈ a9, isJsWs c = true → c = ' ' := by
    refine runScan_pres _ tryHexPair_ok ?_ hHex P10
    intro l' r rest hr _ c hc
    obtain ⟨b, d, f, hb, hd, hf, hshape⟩ := tryHexPair_repl_shape hr
    subst hshape
    intro hws
    exfalso
    rcases List.mem_cons.mp hc with h1 | h1
    · subst h1; exact absurd hws (by decide)
    rcases List.mem_cons.mp h1 with h2 | h2
    · subst h2; rw [isHexCI_not_ws hb] at hws; exact Bool.false_ne_true hws
    rcases List.mem_cons.mp h2 with h3 | h3
    · subst h3; rw [isHexCI_not_ws hd] at hws; exact Bool.false_ne_true hws
    rcases List.mem_cons.mp h3 with h4 | h4
    · subst h4; rw [isHexCI_not_ws hf] at hws; exact Bool.false_ne_true hws
    · simp at h4
  have P8 : ∀ c ∈ a8, isJsWs c = true → c = ' ' :=
    runScan_pres _ (tryWsLit_ok _ (by decide))
      (fun l' r rest hr _ => constRepl_hrepl _ (by simp) l' r rest hr) hW1 P9
  have P7 : ∀ c ∈ a7, isJsWs c = true → c = ' ' :=
    runScan_pres _ (tryWsLit_ok _ (by decide))
      (fun l' r rest hr _ => constRepl_hrepl _ (by simp) l' r rest hr) hW2 P8
  have P6 : ∀ c ∈ a6, isJsWs c = true → c = ' ' :=
    runScan_pres _ (tryWsLit_ok _ (by decide))
      (fun l' r rest hr _ => constRepl_hrepl _ (by simp) l' r rest hr) hW3 P7
  have P5 : ∀ c ∈ a5, isJsWs c = true → c = ' ' :=
    runScan_pres _ (tryWsLit_ok _ (by decide))
      (fun l' r rest hr _ => constRepl_hrepl _ (by simp) l' r rest hr) hW4 P6
  -- from the quote conversion on, carry the double-quote exclusion too
  have P4 : ∀ c ∈ a4, (isJsWs c = true → c = ' ') ∧ c ≠ dblQ := by
    intro c hc
    rw [← hQ] at hc
    refine ⟨?_, quoteSwapL_no_dq hc⟩
    rcases quoteSwapL_mem hc with h1 | h1
    · subst h1; intro hws; exact absurd hws (by decide)
    · exact P5 c h1
  have P3 : ∀ c ∈ a3, (isJsWs c = true → c = ' ') ∧ c ≠ dblQ := by
    intro c hc
    rw [← hTrim] at hc
    exact P4 c (jsTrimL_subset hc)
  have P2 : ∀ c ∈ a2, (isJsWs c = true → c = ' ') ∧ c ≠ dblQ :=
    runScan_pres _ tryVersion_ok
      (fun l' r rest hr _ => constRepl_hrepl _ (by simp) l' r rest hr) hV P3
  have P1 : ∀ c ∈ a1, (isJsWs c = true → c = ' ') ∧ c ≠ dblQ := by
    refine runScan_pres _ tryTransform0_ok ?_ hT P2
    intro l' r rest hr _ c hc
    rw [tryTransform0_repl_shape hr] at hc
    simp at hc
  exact runScan_pres _ tryEmptyG_ok
    (fun l' r rest hr _ => constRepl_hrepl _ (by simp) l' r rest hr) hG P1

/-! ## Lifting the pipelines to String -/

theorem ultraOptimizeSVG_data (s : String) :
    ∃ out, Part000.ultraOptimizeL s.data = some out ∧
      (Part000.ultraOptimizeSVG s).data = out := by
  obtain ⟨out, hout⟩ := Option.isSome_iff_exists.mp (Part000.ultraOptimizeL_isSome s.data)
  exact ⟨out, hout, by simp [Part000.ultraOptimizeSVG, hout]⟩

theorem svgToDataUriP0_payload (s : String) :
    dataUriPayload (Part000.svgToDataUri s) =
      String.mk (Part000.encodeP0L (Part000.ultraOptimizeSVG s).data) := by
  have h1 : (Part000.svgToDataUri s).data
      = dataUriHead.data ++ Part000.encodeP0L (Part000.ultraOptimizeSVG s).data := by
    rw [Part000.svgToDataUri, String.data_append]
  rw [dataUriPayload, h1, List.drop_left]

/-! ## Claims C1, C6, C10 -/

/-- C1, counterexample: the spec's round trip `decode(encode(s)) == s`
fails as stated on all three `svgToDataUri` implementations — part_000
turns the double quote of `s` into a single quote before encoding,
svg_utf8_bundler escapes `%` last and so double-encodes a `#`, and the
ultra bundler optimizes a comment away — so decoding the payload does not
return `s`. -/
theorem c1_roundtrip_counterexample :
    percentDecodeS (dataUriPayload (Part000.svgToDataUri "\"")) ≠ "\"" ∧
    percentDecodeS (dataUriPayload (Utf8.svgToDataUri "#")) ≠ "#" ∧
    percentDecodeS (dataUriPayload (Fixed.svgToDataUri "<!--x-->")) ≠ "<!--x-->" := by
  refine ⟨by decide, by decide, by decide⟩

/-- C1, amended: for every string `s`, stripping the
`data:image/svg+xml;charset=utf-8,` head of part_000's `svgToDataUri s`
and reversing the percent-encoding yields the optimized markup
`ultraOptimizeSVG s` — the encoding layer is reversible relative to the
optimizer output (whose only whitespace is the plain space), but not
relative to the raw input `s`. -/
theorem c1_decode_payload_eq_optimized (s : String) :
    percentDecodeS (dataUriPayload (Part000.svgToDataUri s)) =
      Part000.ultraOptimizeSVG s := by
  obtain ⟨out, hout, hdata⟩ := ultraOptimizeSVG_data s
  rw [svgToDataUriP0_payload, percentDecodeS]
  have hws : ∀ c ∈ (Part000.ultraOptimizeSVG s).data, isJsWs c = true → c = ' ' := by
    rw [hdata]
    exact fun c hc => (ultraOptimizeL_chars hout c hc).1
  have hdec := percentDecodeL_encodeP0L _ hws
  calc String.mk (percentDecodeL
        (String.mk (Part000.encodeP0L (Part000.ultraOptimizeSVG s).data)).data)
      = String.mk (percentDecodeL
        (Part000.encodeP0L (Part000.ultraOptimizeSVG s).data)) := rfl
    _ = String.mk (Part000.ultraOptimizeSVG s).data := by rw [hdec]
    _ = Part000.ultraOptimizeSVG s := rfl

/-- C6: both optimizers are total deterministic pure functions of the
input text: the Option-valued models (in which exhausting the scan fuel —
the analogue of a pass failing to terminate or throwing — would be `none`)
return `some` on every input string, including malformed SVG; being Lean
functions, equal inputs trivially yield equal outputs. -/
theorem c6_optimizers_total (s : String) :
    (Part000.ultraOptimizeSVG? s).isSome = true ∧
    (Fixed.optimizeSVG? s).isSome = true := by
  constructor
  · obtain ⟨o, ho⟩ := Option.isSome_iff_exists.mp (Part000.ultraOptimizeL_isSome s.data)
    simp [Part000.ultraOptimizeSVG?, ho]
  · obtain ⟨o, ho⟩ := Option.isSome_iff_exists.mp (Fixed.optimizeL_isSome s.data)
    simp [Fixed.optimizeSVG?, ho]

/-- C10: for every input string, the payload of part_000's `svgToDataUri`
(after the `data:image/svg+xml;charset=utf-8,` head) contains no
whitespace character and no literal `<`, `>`, `#`, single quote or double
quote: the optimizer converts every double quote to a single quote, and
the escaping chain percent-escapes `%`, single quotes, `#`, `<`, `>` and
all whitespace. -/
theorem c10_payload_char_safety (s : String) (c : Char)
    (hc : c ∈ (dataUriPayload (Part000.svgToDataUri s)).data) :
    isJsWs c = false ∧ c ≠ '<' ∧ c ≠ '>' ∧ c ≠ '#' ∧ c ≠ sglQ ∧ c ≠ dblQ := by
  obtain ⟨out, hout, hdata⟩ := ultraOptimizeSVG_data s
  rw [svgToDataUriP0_payload] at hc
  have hc2 : c ∈ Part000.encodeP0L (Part000.ultraOptimizeSVG s).data := hc
  rw [encodeP0L_eq_flatMap] at hc2
  simp only [List.mem_flatMap] at hc2
  obtain ⟨a, ha, hmem⟩ := hc2
  have hinv := ultraOptimizeL_chars hout a (hdata ▸ ha)
  by_cases h1 : a = '%'
  · subst h1
    rw [show encCharP0 '%' = ['%', '2', '5'] from by decide] at hmem
    simp only [List.mem_cons, List.not_mem_nil, or_false] at hmem
    rcases hmem with rfl | rfl | rfl <;> refine ⟨by decide, by decide, by decide,
      by decide, by decide, by decide⟩
  · by_cases h2 : a = sglQ
    · subst h2
      rw [show encCharP0 sglQ = ['%', '2', '7'] from by decide] at hmem
      simp only [List.mem_cons, List.not_mem_nil, or_false] at hmem
      rcases hmem with rfl | rfl | rfl <;> refine ⟨by decide, by decide, by decide,
        by decide, by decide, by decide⟩
    · by_cases h3 : a = '#'
      · subst h3
        rw [show encCharP0 '#' = ['%', '2', '3'] from by decide] at hmem
        simp only [List.mem_cons, List.not_mem_nil, or_false] at hmem
        rcases hmem with rfl | rfl | rfl <;> refine ⟨by decide, by decide, by decide,
          by decide, by decide, by decide⟩
      · by_cases h4 : a = '<'
        · subst h4
          rw [show encCharP0 '<' = ['%', '3', 'C'] from by decide] at hmem
          simp only [List.mem_cons, List.not_mem_nil, or_false] at hmem
          rcases hmem with rfl | rfl | rfl <;> refine ⟨by decide, by decide, by decide,
            by decide, by decide, by decide⟩
        · by_cases h5 : a = '>'
          · subst h5
            rw [show encCharP0 '>' = ['%', '3', 'E'] from by decide] at hmem
            simp only [List.mem_cons, List.not_mem_nil, or_false] at hmem
            rcases hmem with rfl | rfl | rfl <;> refine ⟨by decide, by decide, by decide,
              by decide, by decide, by decide⟩
          · by_cases h6 : isJsWs a = true
            · rw [show encCharP0 a = ['%', '2', '0'] from by
                simp [encCharP0, h1, h2, h3, h4, h5, h6]] at hmem
              simp only [List.mem_cons, List.not_mem_nil, or_false] at hmem
              rcases hmem with rfl | rfl | rfl <;> refine ⟨by decide, by decide, by decide,
                by decide, by decide, by decide⟩
            · rw [show encCharP0 a = [a] from by
                simp [encCharP0, h1, h2, h3, h4, h5, h6]] at hmem
              simp only [List.mem_singleton] at hmem
              subst hmem
              exact ⟨Bool.not_eq_true _ ▸ h6, h4, h5, h3, h2, hinv.2⟩

/-- C10 witness: the payload of `svgToDataUri "<a>"` is `%3Ca%3E`; its
first character `%` is neither whitespace nor one of the forbidden
characters. -/
theorem c10_payload_char_safety_witness :
    '%' ∈ (dataUriPayload (Part000.svgToDataUri "<a>")).data ∧
    (isJsWs '%' = false ∧ '%' ≠ '<' ∧ '%' ≠ '>' ∧ '%' ≠ '#' ∧ '%' ≠ sglQ ∧ '%' ≠ dblQ) :=
  ⟨by decide, c10_payload_char_safety "<a>" '%' (by decide)⟩

/-! ## Digit lemmas for the decimal claim -/

theorem decDigitChar_digit (n : Nat) : isDigitCh (decDigitChar n) = true := by
  match n with
  | 0 => decide
  | 1 => decide
  | 2 => decide
  | 3 => decide
  | 4 => decide
  | 5 => decide
  | 6 => decide
  | 7 => decide
  | 8 => decide
  | m + 9 => rfl

theorem decDigitsAux_digit : ∀ fuel n, ∀ c ∈ decDigitsAux fuel n, isDigitCh c = true := by
  intro fuel
  induction fuel with
  | zero => intro n c hc; simp [decDigitsAux] at hc
  | succ fuel ih =>
    intro n c hc
    rw [decDigitsAux] at hc
    by_cases h : n < 10
    · rw [if_pos h] at hc
      simp only [List.mem_singleton] at hc
      subst hc
      exact decDigitChar_digit n
    · rw [if_neg h] at hc
      rcases List.mem_append.mp hc with h1 | h1
      · exact ih (n / 10) c h1
      · simp only [List.mem_singleton] at h1
        subst h1
        exact decDigitChar_digit (n % 10)

theorem decDigits_digit : ∀ n, ∀ c ∈ decDigits n, isDigitCh c = true :=
  fun n => decDigitsAux_digit (n + 1) n

theorem takeWhile_append_stop (p : Char → Bool) (xs ys : List Char) (y : Char)
    (hxs : ∀ x ∈ xs, p x = true) (hy : p y = false) :
    (xs ++ y :: ys).takeWhile p = xs := by
  induction xs with
  | nil => simp [List.takeWhile_cons, hy]
  | cons a as ih =>
    have ha := hxs a (List.mem_cons_self a as)
    have ih2 := ih (fun x hx => hxs x (List.mem_cons_of_mem a hx))
    simp [List.takeWhile_cons, ha, ih2]

theorem dropWhile_append_stop (p : Char → Bool) (xs ys : List Char) (y : Char)
    (hxs : ∀ x ∈ xs, p x = true) (hy : p y = false) :
    (xs ++ y :: ys).dropWhile p = y :: ys := by
  induction xs with
  | nil => simp [List.dropWhile_cons, hy]
  | cons a as ih =>
    have ha := hxs a (List.mem_cons_self a as)
    have ih2 := ih (fun x hx => hxs x (List.mem_cons_of_mem a hx))
    simp [List.dropWhile_cons, ha, ih2]

theorem decToNat_foldl (l : List Char) : ∀ a : Nat,
    l.foldl (fun a c => a * 10 + (c.toNat - 48)) a = a * 10 ^ l.length + decToNat l := by
  induction l with
  | nil => intro a; simp [decToNat]
  | cons c cs ih =>
    intro a
    rw [List.foldl_cons, ih]
    have h2 : decToNat (c :: cs) =
        (0 * 10 + (c.toNat - 48)) * 10 ^ cs.length + decToNat cs := by
      rw [decToNat, List.foldl_cons, ih]
    rw [List.length_cons, h2]
    ring

theorem decToNat_append (a b : List Char) :
    decToNat (a ++ b) = decToNat a * 10 ^ b.length + decToNat b := by
  rw [decToNat, List.foldl_append, decToNat_foldl]
  rfl

theorem decToNat_all_zero (l : List Char) (h : ∀ c ∈ l, c = '0') : decToNat l = 0 := by
  induction l with
  | nil => rfl
  | cons a as ih =>
    have ha : a = '0' := h a (List.mem_cons_self a as)
    subst ha
    rw [decToNat, List.foldl_cons]
    show decToNat as = 0
    exact ih (fun c hc => h c (List.mem_cons_of_mem _ hc))

theorem decToNat_replicate_zero (k : Nat) : decToNat (List.replicate k '0') = 0 :=
  decToNat_all_zero _ (fun c hc => List.eq_of_mem_replicate hc)

theorem decToNat_single {m : Nat} (h : m < 10) : decToNat [decDigitChar m] = m := by
  interval_cases m <;> decide

theorem decToNat_decDigitsAux : ∀ fuel n, n < fuel → decToNat (decDigitsAux fuel n) = n := by
  intro fuel
  induction fuel with
  | zero => intro n h; omega
  | succ fuel ih =>
    intro n h
    rw [decDigitsAux]
    by_cases h10 : n < 10
    · rw [if_pos h10]
      exact decToNat_single h10
    · rw [if_neg h10, decToNat_append, ih (n / 10) (by omega),
        decToNat_single (Nat.mod_lt _ (by norm_num)), List.length_singleton, pow_one]
      omega

theorem decToNat_decDigits (n : Nat) : decToNat (decDigits n) = n :=
  decToNat_decDigitsAux (n + 1) n (by omega)

theorem decDigitsAux_ne_nil : ∀ fuel n, 0 < fuel → decDigitsAux fuel n ≠ [] := by
  intro fuel n h
  cases fuel with
  | zero => omega
  | succ fuel =>
    rw [decDigitsAux]
    by_cases h10 : n < 10
    · rw [if_pos h10]; simp
    · rw [if_neg h10]; simp

theorem decDigits_ne_nil (n : Nat) : decDigits n ≠ [] :=
  decDigitsAux_ne_nil (n + 1) n (by omega)

theorem decDigits_head (n : Nat) :
    ∃ d tl, decDigits n = d :: tl ∧ isDigitCh d = true := by
  cases hd : decDigits n with
  | nil => exact absurd hd (decDigits_ne_nil n)
  | cons d tl =>
    exact ⟨d, tl, rfl, decDigits_digit n d (by rw [hd]; exact List.mem_cons_self _ _)⟩

theorem isDigitCh_not_ws {c : Char} (h : isDigitCh c = true) : isJsWs c = false := by
  simp only [isDigitCh, Bool.and_eq_true, decide_eq_true_eq] at h
  simp only [isJsWs, Bool.or_eq_false_iff, Bool.and_eq_false_iff,
    decide_eq_false_iff_not]
  omega

theorem takeWhile_all (p : Char → Bool) (l : List Char) (h : ∀ c ∈ l, p c = true) :
    l.takeWhile p = l := by
  induction l with
  | nil => rfl
  | cons a as ih =>
    simp [List.takeWhile_cons, h a (List.mem_cons_self a as),
      ih (fun c hc => h c (List.mem_cons_of_mem a hc))]

theorem dropWhile_all (p : Char → Bool) (l : List Char) (h : ∀ c ∈ l, p c = true) :
    l.dropWhile p = [] := by
  induction l with
  | nil => rfl
  | cons a as ih =>
    simp [List.dropWhile_cons, h a (List.mem_cons_self a as),
      ih (fun c hc => h c (List.mem_cons_of_mem a hc))]

/-- A matcher that consumes its whole input makes the scan a single
replacement. -/
theorem runScan_full (mtch : Matcher) {l r : List Char}
    (h : mtch l = some (r, [])) (hne : l ≠ []) : runScan mtch l = some r := by
  cases l with
  | nil => exact absurd rfl hne
  | cons c cs =>
    rw [runScan, List.length_cons]
    simp [scanGo, h]

/-- On a whole decimal literal with at least three fractional digits the
decimal matcher fires and consumes everything. -/
theorem tryDecimal_full {d1 d2 : List Char} (h1ne : d1 ≠ [])
    (h1 : ∀ c ∈ d1, isDigitCh c = true) (h2 : ∀ c ∈ d2, isDigitCh c = true)
    (h3 : 3 ≤ d2.length) :
    tryDecimal (d1 ++ '.' :: d2) = some (toFixed2Repl d1 d2, []) := by
  have ht : (d1 ++ '.' :: d2).takeWhile isDigitCh = d1 :=
    takeWhile_append_stop _ _ _ _ h1 (by decide)
  have hd : (d1 ++ '.' :: d2).dropWhile isDigitCh = '.' :: d2 :=
    dropWhile_append_stop _ _ _ _ h1 (by decide)
  have hie : d1.isEmpty = false := by
    cases d1 with
    | nil => exact absurd rfl h1ne
    | cons a as => rfl
  simp [tryDecimal, ht, hd, hie, takeWhile_all _ _ h2, dropWhile_all _ _ h2, h3]

theorem tryDecimal_digits_none {l : List Char} (h : ∀ c ∈ l, isDigitCh c = true) :
    tryDecimal l = none := by
  simp only [tryDecimal, takeWhile_all _ _ h, dropWhile_all _ _ h]
  split <;> rfl

/-- The decimal pass is the identity on a string of digits: integer
literals are not touched (no trailing `.00` is appended). -/
theorem runScan_digits_id {l : List Char} (h : ∀ c ∈ l, isDigitCh c = true) :
    runScan tryDecimal l = some l := by
  rw [runScan]
  refine scanGo_id _ _ _ ?_ le_rfl
  intro c cs hsuf
  exact tryDecimal_digits_none (fun x hx => h x (hsuf.subset hx))

theorem fixed2Of_shape (n : Nat) :
    ∃ I F, fixed2Of n = I ++ '.' :: F ∧ F.length = 2 ∧
      (∀ c ∈ I, isDigitCh c = true) ∧ (∀ c ∈ F, isDigitCh c = true) ∧
      decToNat (I ++ F) = n := by
  simp only [fixed2Of]
  set ds := decDigits n with hds
  set ds3 := (if ds.length < 3 then List.replicate (3 - ds.length) '0' ++ ds else ds)
    with hds3
  have hlen : 3 ≤ ds3.length := by
    rw [hds3]
    by_cases h : ds.length < 3
    · rw [if_pos h, List.length_append, List.length_replicate]
      omega
    · rw [if_neg h]; omega
  have hchars : ∀ x ∈ ds3, isDigitCh x = true := by
    intro x hx
    rw [hds3] at hx
    by_cases h : ds.length < 3
    · rw [if_pos h] at hx
      rcases List.mem_append.mp hx with h1 | h1
      · rw [List.eq_of_mem_replicate h1]; decide
      · exact decDigits_digit n x h1
    · rw [if_neg h] at hx
      exact decDigits_digit n x hx
  have hval : decToNat ds3 = n := by
    rw [hds3]
    by_cases h : ds.length < 3
    · rw [if_pos h, decToNat_append, decToNat_replicate_zero, hds, decToNat_decDigits]
      ring
    · rw [if_neg h, hds]
      exact decToNat_decDigits n
  refine ⟨ds3.take (ds3.length - 2), ds3.drop (ds3.length - 2), rfl, ?_, ?_, ?_, ?_⟩
  · rw [List.length_drop]; omega
  · intro c hc; exact hchars c (List.mem_of_mem_take hc)
  · intro c hc; exact hchars c (List.mem_of_mem_drop hc)
  · rw [List.take_append_drop]; exact hval

/-- Below `10^21` the replacement is in fixed notation: digits around one
dot, exactly two fractional digits, and the value (scaled by 100) is the
half-up rounding of the literal (scaled by 100). -/
theorem toFixed2Repl_fixed {d1 d2 : List Char} (hlt : decToNat d1 < 10 ^ 21) :
    ∃ I F, toFixed2Repl d1 d2 = I ++ '.' :: F ∧ F.length = 2 ∧
      (∀ c ∈ I, isDigitCh c = true) ∧ (∀ c ∈ F, isDigitCh c = true) ∧
      decToNat (I ++ F) =
        (200 * decToNat (d1 ++ d2) + 10 ^ d2.length) / (2 * 10 ^ d2.length) := by
  have h21 : ¬ 10 ^ 21 ≤ decToNat d1 := not_le.mpr hlt
  have hob : ¬ jsOverflowBound ≤ decToNat d1 := by
    have hlt2 : (10 : ℕ) ^ 21 < jsOverflowBound := by decide
    omega
  rw [toFixed2Repl, if_neg hob, if_neg h21]
  exact fixed2Of_shape _

/-- From `10^21` up to the overflow threshold the replacement is in
exponential notation: `e` and `+` appear in it. -/
theorem toFixed2Repl_exp {d1 d2 : List Char} (hge : 10 ^ 21 ≤ decToNat d1)
    (hlt : decToNat d1 < jsOverflowBound) :
    'e' ∈ toFixed2Repl d1 d2 ∧ '+' ∈ toFixed2Repl d1 d2 := by
  rw [toFixed2Repl, if_neg (not_le.mpr hlt), if_pos hge]
  have hnz : ∃ c ∈ decDigits (decToNat d1), c ≠ '0' := by
    by_contra hcon
    push_neg at hcon
    have h0 : decToNat (decDigits (decToNat d1)) = 0 := decToNat_all_zero _ hcon
    rw [decToNat_decDigits] at h0
    have : (0 : ℕ) < 10 ^ 21 := by norm_num
    omega
  obtain ⟨c0, hc0mem, hc0⟩ := hnz
  cases hs : stripZeros (decDigits (decToNat d1) ++ d2) with
  | nil =>
    exfalso
    have hrev : (decDigits (decToNat d1) ++ d2).reverse.dropWhile (fun c => c = '0') = [] := by
      have := congrArg List.reverse hs
      simpa [stripZeros] using this
    rw [List.dropWhile_eq_nil_iff] at hrev
    exact hc0 (by
      have := hrev c0 (by rw [List.mem_reverse]; exact List.mem_append_left _ hc0mem)
      simpa using this)
  | cons s tl =>
    rw [jsExpForm, hs]
    constructor
    · refine List.mem_cons_of_mem _ (List.mem_append_right _ ?_)
      exact List.mem_cons_self _ _
    · refine List.mem_cons_of_mem _ (List.mem_append_right _ ?_)
      exact List.mem_cons_of_mem _ (List.mem_cons_self _ _)

theorem hexDigitChar_mem_lower : ∀ m : Nat, hexDigitChar m ∈ "0123456789abcdef".data
  | 0 => by decide
  | 1 => by decide
  | 2 => by decide
  | 3 => by decide
  | 4 => by decide
  | 5 => by decide
  | 6 => by decide
  | 7 => by decide
  | 8 => by decide
  | 9 => by decide
  | 10 => by decide
  | 11 => by decide
  | 12 => by decide
  | 13 => by decide
  | 14 => by decide
  | m + 15 => by
    show 'f' ∈ _
    decide

theorem natToHexL_small {n : Nat} (h : n < 16) : natToHexL n = [hexDigitChar n] := by
  rw [natToHexL, natToHexAux, if_pos h]

theorem natToHexL_two {n : Nat} (h16 : 16 ≤ n) (h : n < 256) :
    natToHexL n = [hexDigitChar (n / 16), hexDigitChar (n % 16)] := by
  rw [natToHexL, natToHexAux, if_neg (by omega)]
  obtain ⟨m, rfl⟩ : ∃ m, n = m + 1 := ⟨n - 1, by omega⟩
  rw [natToHexAux, if_pos (by omega)]
  rfl

/-- `parseInt(x).toString(16).padStart(2, "0")` on a channel value up to
255 yields exactly two lower-case hexadecimal digits. -/
theorem pad2Hex_two {n : Nat} (h : n < 256) :
    (pad2Hex n).length = 2 ∧ ∀ c ∈ pad2Hex n, c ∈ "0123456789abcdef".data := by
  by_cases h16 : n < 16
  · rw [pad2Hex, natToHexL_small h16, if_pos (by simp)]
    refine ⟨rfl, ?_⟩
    intro c hc
    rcases List.mem_cons.mp hc with h1 | h1
    · subst h1; decide
    · simp only [List.mem_singleton] at h1
      subst h1
      exact hexDigitChar_mem_lower n
  · rw [pad2Hex, natToHexL_two (by omega) h, if_neg (by simp)]
    refine ⟨rfl, ?_⟩
    intro c hc
    rcases List.mem_cons.mp hc with h1 | h1
    · subst h1; exact hexDigitChar_mem_lower _
    · simp only [List.mem_cons, List.not_mem_nil, or_false] at h1
      subst h1
      exact hexDigitChar_mem_lower _

theorem lit_self (pat rest : List Char) : lit pat (pat ++ rest) = some rest := by
  induction pat with
  | nil => rfl
  | cons p ps ih =>
    rw [List.cons_append, lit, if_pos rfl]
    exact ih

theorem litCI_self (pat rest : List Char) : litCI pat (pat ++ rest) = some rest := by
  induction pat with
  | nil => rfl
  | cons p ps ih =>
    rw [List.cons_append, litCI, if_pos (by simp [eqCI])]
    exact ih

theorem dropWs_cons {c : Char} (cs : List Char) (h : isJsWs c = false) :
    dropWs (c :: cs) = c :: cs := by
  simp [dropWs, List.dropWhile_cons, h]

theorem dropWs_digits (B X : List Char) (hB : B ≠ [])
    (hd : ∀ c ∈ B, isDigitCh c = true) : dropWs (B ++ X) = B ++ X := by
  cases B with
  | nil => exact absurd rfl hB
  | cons d tl =>
    have hws := isDigitCh_not_ws (hd d (List.mem_cons_self _ _))
    simp [dropWs, List.cons_append, List.dropWhile_cons, hws]

/-- The rgb matcher on a whole canonically spaced `rgb(r,g,b)` literal:
it fires, consumes everything, and emits the three channels in two-padded
lower-case hex after `#`. -/
theorem tryRgb_canonical (r g b : Nat) :
    tryRgb ("rgb(".data ++ decDigits r ++
        ',' :: (decDigits g ++ ',' :: (decDigits b ++ [')']))) =
      some ('#' :: (pad2Hex r ++ pad2Hex g ++ pad2Hex b), []) := by
  have hBr := decDigits_digit r
  have hBg := decDigits_digit g
  have hBb := decDigits_digit b
  have e1 : litCI "rgb(".data ("rgb(".data ++ (decDigits r ++
      ',' :: (decDigits g ++ ',' :: (decDigits b ++ [')'])))) =
      some (decDigits r ++ ',' :: (decDigits g ++ ',' :: (decDigits b ++ [')']))) :=
    litCI_self _ _
  have e2 := dropWs_digits (decDigits r)
    (',' :: (decDigits g ++ ',' :: (decDigits b ++ [')']))) (decDigits_ne_nil r) hBr
  have e3 := takeWhile_append_stop isDigitCh (decDigits r)
    (decDigits g ++ ',' :: (decDigits b ++ [')'])) ',' hBr (by decide)
  have e4 := dropWhile_append_stop isDigitCh (decDigits r)
    (decDigits g ++ ',' :: (decDigits b ++ [')'])) ',' hBr (by decide)
  have e5 := dropWs_cons (decDigits g ++ ',' :: (decDigits b ++ [')']))
    (c := ',') (by decide)
  have e6 : lit [','] (',' :: (decDigits g ++ ',' :: (decDigits b ++ [')']))) =
      some (decDigits g ++ ',' :: (decDigits b ++ [')'])) := by
    simpa using lit_self [','] (decDigits g ++ ',' :: (decDigits b ++ [')']))
  have e7 := dropWs_digits (decDigits g) (',' :: (decDigits b ++ [')']))
    (decDigits_ne_nil g) hBg
  have e8 := takeWhile_append_stop isDigitCh (decDigits g)
    (decDigits b ++ [')']) ',' hBg (by decide)
  have e9 := dropWhile_append_stop isDigitCh (decDigits g)
    (decDigits b ++ [')']) ',' hBg (by decide)
  have e10 := dropWs_cons (decDigits b ++ [')']) (c := ',') (by decide)
  have e11 : lit [','] (',' :: (decDigits b ++ [')'])) =
      some (decDigits b ++ [')']) := by
    simpa using lit_self [','] (decDigits b ++ [')'])
  have e12 := dropWs_digits (decDigits b) [')'] (decDigits_ne_nil b) hBb
  have e13 := takeWhile_append_stop isDigitCh (decDigits b) [] ')' hBb (by decide)
  have e14 := dropWhile_append_stop isDigitCh (decDigits b) [] ')' hBb (by decide)
  have e15 := dropWs_cons (c := ')') [] (by decide)
  have e16 : lit [')'] [')'] = some ([] : List Char) := rfl
  have hier : (decDigits r).isEmpty = false := by
    obtain ⟨d, tl, hdt, _⟩ := decDigits_head r
    rw [hdt]; rfl
  have hieg : (decDigits g).isEmpty = false := by
    obtain ⟨d, tl, hdt, _⟩ := decDigits_head g
    rw [hdt]; rfl
  have hieb : (decDigits b).isEmpty = false := by
    obtain ⟨d, tl, hdt, _⟩ := decDigits_head b
    rw [hdt]; rfl
  simp only [tryRgb, List.append_assoc, e1, e2, e3, e4, e5, e6, e7, e8, e9, e10,
    e11, e12, e13, e14, e15, e16, hier, hieg, hieb, Bool.false_eq_true, if_false,
    decToNat_decDigits]

theorem tryHexPair_short (l : List Char) (h : l.length < 7) : tryHexPair l = none := by
  match l with
  | [] => rfl
  | [a] => rfl
  | [a, b] => rfl
  | [a, b, c] => rfl
  | [a, b, c, d] => rfl
  | [a, b, c, d, e] => rfl
  | [a, b, c, d, e, f] => rfl
  | a :: b :: c :: d :: e :: f :: g :: rest => simp [List.length_cons] at h; omega

/-! ## Claims C2, C3, C4, C5, C7 -/

/-- C2: the optimizers are not idempotent, although the spec requires it;
part_000's empty-group removal deletes only the innermost empty `<g>` in
one pass (the second pass removes the group the first pass emptied), and
the ultra variant's hex-shorthand collapse can create a fresh paired-hex
pattern out of the collapsed text and the remaining digits. -/
theorem c2_not_idempotent_eval :
    Part000.ultraOptimizeSVG (Part000.ultraOptimizeSVG "<g><g></g></g>") ≠
      Part000.ultraOptimizeSVG "<g><g></g></g>" ∧
    Fixed.optimizeSVG (Fixed.optimizeSVG "#aaaaaaaaaaaaa") ≠
      Fixed.optimizeSVG "#aaaaaaaaaaaaa" := by
  refine ⟨by decide, by decide⟩

/-- C3, counterexamples to the original claim: rounding `9.996` to two
places yields `10.00`, whose integer part `10` differs from the original
integer part `9` — "the integer part of a rounded literal is not altered"
fails; and a matched literal of value `10^21` is rewritten into scientific
notation (`toFixed` falls back to `Number#toString` from `10^21` up) — "no
scientific notation is introduced" fails too. -/
theorem c3_rounding_counterexample :
    Fixed.optimizeSVG "9.996" = "10.00" ∧
    intPart (Fixed.optimizeSVG "9.996") ≠ intPart "9.996" ∧
    Fixed.optimizeSVG "1000000000000000000000.000" = "1e+21" := by
  refine ⟨by decide, by decide, by decide⟩

/-- C3, amended: on every matched decimal literal `d1.d2` (at least three
fractional digits) of value below `10^21`, the decimal pass fires on the
whole literal and replaces it by `I.F` with exactly two fractional digits,
all output characters decimal digits around a single dot, and the output
value scaled by 100 is the half-up rounding of the literal's value scaled
by 100 (the two inequalities pin `decToNat (I ++ F)` to within half a unit
of `100 · N/10^|d2|`, ties upward); the pass is the identity on every
digit-only string, so integer literals gain no trailing `.00`; but from
`10^21` up the replacement is in scientific notation (`e` and `+` appear),
and `Infinity` from the double overflow threshold on — and, per the
counterexample theorem, the carry of rounding may alter the integer part.
The concrete evaluations connect the pass-level statements to both full
optimizer pipelines. -/
theorem c3_decimal_reduction_amended :
    (∀ d1 d2 : List Char, d1 ≠ [] → (∀ c ∈ d1, isDigitCh c = true) →
      (∀ c ∈ d2, isDigitCh c = true) → 3 ≤ d2.length → decToNat d1 < 10 ^ 21 →
      ∃ I F, runScan tryDecimal (d1 ++ '.' :: d2) = some (I ++ '.' :: F) ∧
        F.length = 2 ∧ (∀ c ∈ I, isDigitCh c = true) ∧
        (∀ c ∈ F, isDigitCh c = true) ∧
        2 * 10 ^ d2.length * decToNat (I ++ F) ≤
          200 * decToNat (d1 ++ d2) + 10 ^ d2.length ∧
        200 * decToNat (d1 ++ d2) + 10 ^ d2.length <
          2 * 10 ^ d2.length * (decToNat (I ++ F) + 1)) ∧
    (∀ l : List Char, (∀ c ∈ l, isDigitCh c = true) →
      runScan tryDecimal l = some l) ∧
    (∀ d1 d2 : List Char, 10 ^ 21 ≤ decToNat d1 → decToNat d1 < jsOverflowBound →
      'e' ∈ toFixed2Repl d1 d2 ∧ '+' ∈ toFixed2Repl d1 d2) ∧
    (∀ d1 d2 : List Char, jsOverflowBound ≤ decToNat d1 →
      toFixed2Repl d1 d2 = "Infinity".data) ∧
    Fixed.optimizeSVG "12.34567" = "12.35" ∧
    Fixed.optimizeSVG "12" = "12" ∧
    Part000.ultraOptimizeSVG "12.34567" = "12.35" ∧
    Part000.ultraOptimizeSVG "12" = "12" ∧
    Fixed.optimizeSVG "1000000000000000000000.000" = "1e+21" := by
  refine ⟨?_, ?_, ?_, ?_, by decide, by decide, by decide, by decide, by decide⟩
  · intro d1 d2 hne h1 h2 h3 hlt
    obtain ⟨I, F, hEq, hF2, hI, hFd, hval⟩ := @toFixed2Repl_fixed d1 d2 hlt
    refine ⟨I, F, ?_, hF2, hI, hFd, ?_⟩
    · refine runScan_full tryDecimal ?_ (by simp)
      rw [tryDecimal_full hne h1 h2 h3, hEq]
    · have hpos : 0 < 2 * 10 ^ d2.length := by positivity
      have hdm := Nat.div_add_mod
        (200 * decToNat (d1 ++ d2) + 10 ^ d2.length) (2 * 10 ^ d2.length)
      have hmod := Nat.mod_lt
        (200 * decToNat (d1 ++ d2) + 10 ^ d2.length) hpos
      rw [hval, mul_add, mul_one]
      set Q := (200 * decToNat (d1 ++ d2) + 10 ^ d2.length) /
        (2 * 10 ^ d2.length) with hQ
      set R := (200 * decToNat (d1 ++ d2) + 10 ^ d2.length) %
        (2 * 10 ^ d2.length) with hR
      set P := 2 * 10 ^ d2.length * Q with hP
      exact ⟨by omega, by omega⟩
  · intro l h
    exact runScan_digits_id h
  · intro d1 d2 hge hlt
    exact toFixed2Repl_exp hge hlt
  · intro d1 d2 hbig
    rw [toFixed2Repl, if_pos hbig]

/-- C3 witness: the universal components of the amended claim discharged
at the literal `12.345` and the integer literal `12`. -/
theorem c3_decimal_reduction_amended_witness :
    (∃ I F, runScan tryDecimal ("12".data ++ '.' :: "345".data) =
        some (I ++ '.' :: F) ∧
      F.length = 2 ∧ (∀ c ∈ I, isDigitCh c = true) ∧
      (∀ c ∈ F, isDigitCh c = true) ∧
      2 * 10 ^ "345".data.length * decToNat (I ++ F) ≤
        200 * decToNat ("12".data ++ "345".data) + 10 ^ "345".data.length ∧
      200 * decToNat ("12".data ++ "345".data) + 10 ^ "345".data.length <
        2 * 10 ^ "345".data.length * (decToNat (I ++ F) + 1)) ∧
    runScan tryDecimal "12".data = some "12".data :=
  ⟨c3_decimal_reduction_amended.1 "12".data "345".data (by decide) (by decide)
    (by decide) (by decide) (by decide),
   c3_decimal_reduction_amended.2.1 "12".data (by decide)⟩

/-- C4, counterexample: `#112233` has equal digits within each channel
(`11`, `22`, `33`), so contrary to the claim's "…while `#112233` stays
`#112233`" the optimizer collapses it to `#123`. -/
theorem c4_hex_counterexample :
    Fixed.optimizeSVG "#112233" = "#123" ∧
    Fixed.optimizeSVG "#112233" ≠ "#112233" := by
  refine ⟨by decide, by decide⟩

/-- C4, amended: every `rgb(r,g,b)` literal with channels up to 255
converts to `#` plus each channel in exactly two lower-case hexadecimal
digits (zero-padded) — proved for every channel triple, with
`rgb(255,255,255)` → `#ffffff` → `#fff` concretely; channels above 255
produce more than two hex digits (`rgb(256,0,0)` → `#1000000`); and on a
six-hex-digit color the shorthand collapse fires exactly when the two
digits of each channel are equal up to case (so `#112233` → `#123`, and
`#AaBbCc` also collapses). -/
theorem c4_color_normalization_amended :
    Fixed.optimizeSVG "rgb(255,255,255)" = "#fff" ∧
    Part000.ultraOptimizeSVG "rgb(255,255,255)" = "#fff" ∧
    Fixed.optimizeSVG "rgb(256,0,0)" = "#1000000" ∧
    Fixed.optimizeSVG "#112233" = "#123" ∧
    Fixed.optimizeSVG "#AaBbCc" = "#ABC" ∧
    (∀ r g b : Nat, r ≤ 255 → g ≤ 255 → b ≤ 255 →
      runScan tryRgb ("rgb(".data ++ decDigits r ++
          ',' :: (decDigits g ++ ',' :: (decDigits b ++ [')']))) =
        some ('#' :: (pad2Hex r ++ pad2Hex g ++ pad2Hex b)) ∧
      (pad2Hex r).length = 2 ∧ (pad2Hex g).length = 2 ∧ (pad2Hex b).length = 2 ∧
      ∀ c ∈ pad2Hex r ++ pad2Hex g ++ pad2Hex b, c ∈ "0123456789abcdef".data) ∧
    (∀ x1 x2 x3 x4 x5 x6 : Char, isHexCI x1 = true → isHexCI x3 = true →
      isHexCI x5 = true →
      ((eqCI x2 x1 = true ∧ eqCI x4 x3 = true ∧ eqCI x6 x5 = true →
        runScan tryHexPair ['#', x1, x2, x3, x4, x5, x6] = some ['#', x1, x3, x5]) ∧
       (¬(eqCI x2 x1 = true ∧ eqCI x4 x3 = true ∧ eqCI x6 x5 = true) →
        runScan tryHexPair ['#', x1, x2, x3, x4, x5, x6] =
          some ['#', x1, x2, x3, x4, x5, x6]))) := by
  refine ⟨by decide, by decide, by decide, by decide, by decide, ?_, ?_⟩
  · intro r g b hr hg hb
    have hrun := runScan_full tryRgb (tryRgb_canonical r g b) (by
      have hdat : "rgb(".data = ['r', 'g', 'b', '('] := rfl
      rw [hdat]
      simp)
    refine ⟨hrun, (pad2Hex_two (by omega)).1, (pad2Hex_two (by omega)).1,
      (pad2Hex_two (by omega)).1, ?_⟩
    intro c hc
    rcases List.mem_append.mp hc with h1 | h1
    · rcases List.mem_append.mp h1 with h2 | h2
      · exact (pad2Hex_two (show r < 256 by omega)).2 c h2
      · exact (pad2Hex_two (show g < 256 by omega)).2 c h2
    · exact (pad2Hex_two (show b < 256 by omega)).2 c h1
  intro x1 x2 x3 x4 x5 x6 h1 h3 h5
  constructor
  · rintro ⟨e1, e2, e3⟩
    have hm : tryHexPair ['#', x1, x2, x3, x4, x5, x6] = some (['#', x1, x3, x5], []) := by
      simp [tryHexPair, h1, h3, h5, e1, e2, e3]
    have hlen : (['#', x1, x2, x3, x4, x5, x6] : List Char).length = 7 := by simp
    rw [runScan, hlen]
    simp [scanGo, hm]
  · intro hneg
    have hfail : eqCI x2 x1 = false ∨ eqCI x4 x3 = false ∨ eqCI x6 x5 = false := by
      by_cases hb : eqCI x2 x1 = true
      · by_cases hc : eqCI x4 x3 = true
        · by_cases hd : eqCI x6 x5 = true
          · exact absurd ⟨hb, hc, hd⟩ hneg
          · exact Or.inr (Or.inr (by simpa using hd))
        · exact Or.inr (Or.inl (by simpa using hc))
      · exact Or.inl (by simpa using hb)
    have hnone : tryHexPair ['#', x1, x2, x3, x4, x5, x6] = none := by
      rcases hfail with hb | hb | hb <;> simp [tryHexPair, hb]
    have hid : ∀ c cs, (c :: cs) <:+ ['#', x1, x2, x3, x4, x5, x6] →
        tryHexPair (c :: cs) = none := by
      intro c cs hsuf
      obtain ⟨t, ht⟩ := hsuf
      cases t with
      | nil =>
        simp only [List.nil_append] at ht
        rw [ht]
        exact hnone
      | cons a t2 =>
        have hlen7 : (a :: t2).length + (c :: cs).length = 7 := by
          rw [← List.length_append, ht]
          rfl
        simp only [List.length_cons] at hlen7
        refine tryHexPair_short _ ?_
        simp only [List.length_cons]
        omega
    have hlen : (['#', x1, x2, x3, x4, x5, x6] : List Char).length = 7 := by simp
    rw [runScan, hlen]
    exact scanGo_id tryHexPair 7 _ hid (by simp)

/-- C4 witness: the rgb component at the channel triple `255,255,255` and
the collapse component at the channels `aa`, `bb`, `cc`, discharged at
concrete inputs. -/
theorem c4_color_normalization_amended_witness :
    (runScan tryRgb ("rgb(".data ++ decDigits 255 ++
        ',' :: (decDigits 255 ++ ',' :: (decDigits 255 ++ [')']))) =
      some ('#' :: (pad2Hex 255 ++ pad2Hex 255 ++ pad2Hex 255)) ∧
     (pad2Hex 255).length = 2 ∧ (pad2Hex 255).length = 2 ∧
     (pad2Hex 255).length = 2 ∧
     ∀ c ∈ pad2Hex 255 ++ pad2Hex 255 ++ pad2Hex 255,
       c ∈ "0123456789abcdef".data) ∧
    isHexCI 'a' = true ∧
    (eqCI 'a' 'a' = true ∧ eqCI 'b' 'b' = true ∧ eqCI 'c' 'c' = true) ∧
    runScan tryHexPair ['#', 'a', 'a', 'b', 'b', 'c', 'c'] = some ['#', 'a', 'b', 'c'] :=
  ⟨c4_color_normalization_amended.2.2.2.2.2.1 255 255 255
      (by decide) (by decide) (by decide),
   by decide, ⟨by decide, by decide, by decide⟩,
    (c4_color_normalization_amended.2.2.2.2.2.2 'a' 'a' 'b' 'b' 'c' 'c'
      (by decide) (by decide) (by decide)).1 ⟨by decide, by decide, by decide⟩⟩

/-- C5: contrary to the spec's "never removes a `viewBox`", part_000's
lazy editor-attribute pattern `\s*xmlns:.*?=".*?"` deletes the `viewBox`
attribute of a well-formed SVG whose `xmlns:` attribute is single-quoted:
the lazy `.*?="` runs forward to the `viewBox="` that follows.  The input
contains `viewBox`; the optimizer output does not. -/
theorem c5_viewbox_removed_eval :
    Part000.ultraOptimizeSVG "<svg xmlns:x=\x27u\x27 viewBox=\"0 0 1 1\"></svg>" =
      "<svg></svg>" ∧
    hasSub "<svg xmlns:x=\x27u\x27 viewBox=\"0 0 1 1\"></svg>".data "viewBox".data = true ∧
    hasSub (Part000.ultraOptimizeSVG
      "<svg xmlns:x=\x27u\x27 viewBox=\"0 0 1 1\"></svg>").data "viewBox".data = false := by
  refine ⟨by decide, by decide, by decide⟩

/-- C7: a run over a directory with no `.svg` entries (matched
case-insensitively) exits with status 1 before writing any output —
`RunResult.fatal 1` carries no bundle; this also covers a missing
directory, which exits 1 as well. -/
theorem c7_zero_svg_fatal (dirExists : Bool) (dir : List (String × Option String))
    (h : (dir.map Prod.fst).filter Fixed.endsWithSvg = []) :
    Fixed.bundleEmojis dirExists dir = Fixed.RunResult.fatal 1 := by
  cases dirExists with
  | false => rfl
  | true =>
    simp only [Fixed.bundleEmojis, Fixed.svgFiles, h]
    rfl

/-- C7 witness: a directory with one non-SVG file. -/
theorem c7_zero_svg_fatal_witness :
    (([("a.txt", some "x")].map Prod.fst).filter Fixed.endsWithSvg = []) ∧
    Fixed.bundleEmojis true [("a.txt", some "x")] = Fixed.RunResult.fatal 1 :=
  ⟨by decide, c7_zero_svg_fatal true [("a.txt", some "x")] (by decide)⟩

/-! ## The bundler fold characterisation (for C8) -/

theorem objInsert_append (b : List (String × String)) (k v : String)
    (h : k ∉ b.map Prod.fst) : Fixed.objInsert b k v = b ++ [(k, v)] := by
  induction b with
  | nil => rfl
  | cons e rest ih =>
    obtain ⟨k0, v0⟩ := e
    simp only [List.map_cons, List.mem_cons] at h
    push_neg at h
    simp only [Fixed.objInsert, if_neg (Ne.symm h.1)]
    rw [ih h.2]
    rfl

theorem batchesAux_foldl {α : Type} (g : α → String → α) :
    ∀ fuel (l : List String) (st : α), l.length ≤ fuel →
      (Fixed.batchesAux fuel l).foldl (fun acc batch => batch.foldl g acc) st =
        l.foldl g st := by
  intro fuel
  induction fuel with
  | zero =>
    intro l st hl
    have : l = [] := List.length_eq_zero.mp (Nat.le_zero.mp hl)
    subst this
    rfl
  | succ fuel ih =>
    intro l st hl
    cases l with
    | nil => rfl
    | cons x xs =>
      simp only [Fixed.batchesAux, List.foldl_cons]
      have hlen : ((x :: xs).drop 200).length ≤ fuel := by
        simp only [List.length_drop, List.length_cons]
        simp only [List.length_cons] at hl
        omega
      rw [ih _ _ hlen]
      rw [← List.foldl_append, List.take_append_drop]
      rfl

theorem processFile_fold (dir : List (String × Option String)) :
    ∀ (files : List String) (st : Fixed.BundleState),
      ((files.filter (fun f => (Fixed.readFile dir f).isSome)).map Fixed.basenameKey).Nodup →
      (∀ k ∈ (files.filter (fun f => (Fixed.readFile dir f).isSome)).map Fixed.basenameKey,
        k ∉ st.bundle.map Prod.fst) →
      files.foldl (Fixed.processFile dir) st =
        ⟨st.bundle ++ (files.filter (fun f => (Fixed.readFile dir f).isSome)).map
            (fun f => (Fixed.basenameKey f,
              Fixed.svgToDataUri ((Fixed.readFile dir f).getD ""))),
          st.processed + (files.filter (fun f => (Fixed.readFile dir f).isSome)).length,
          st.errors + (files.filter (fun f => (Fixed.readFile dir f).isNone)).length⟩ := by
  intro files
  induction files with
  | nil =>
    intro st _ _
    simp only [List.filter_nil, List.map_nil, List.length_nil, List.append_nil,
      Nat.add_zero, List.foldl_nil]
  | cons f fs ih =>
    intro st hnodup hdisj
    cases hread : Fixed.readFile dir f with
    | some c =>
      have hsome : (Fixed.readFile dir f).isSome = true := by rw [hread]; rfl
      have hnone : (Fixed.readFile dir f).isNone = false := by rw [hread]; rfl
      have hfilt1 : (f :: fs).filter (fun f => (Fixed.readFile dir f).isSome) =
          f :: fs.filter (fun f => (Fixed.readFile dir f).isSome) := by
        simp [List.filter_cons, hsome]
      have hfilt2 : (f :: fs).filter (fun f => (Fixed.readFile dir f).isNone) =
          fs.filter (fun f => (Fixed.readFile dir f).isNone) := by
        simp [List.filter_cons, hnone]
      rw [hfilt1] at hnodup hdisj
      rw [hfilt1, hfilt2]
      simp only [List.map_cons] at hnodup hdisj
      rw [List.nodup_cons] at hnodup
      simp only [List.foldl_cons]
      have hstep : Fixed.processFile dir st f =
          ⟨st.bundle ++ [(Fixed.basenameKey f, Fixed.svgToDataUri c)],
            st.processed + 1, st.errors⟩ := by
        simp only [Fixed.processFile, hread]
        rw [objInsert_append _ _ _ (hdisj _ (List.mem_cons_self _ _))]
      rw [hstep]
      rw [ih _ hnodup.2 ?hdisj2]
      case hdisj2 =>
        intro k hk
        simp only [List.map_append, List.map_cons, List.map_nil, List.mem_append,
          List.mem_singleton]
        push_neg
        refine ⟨hdisj k (List.mem_cons_of_mem _ hk), ?_⟩
        intro hkf
        exact hnodup.1 (hkf ▸ hk)
      simp only [Fixed.BundleState.mk.injEq]
      refine ⟨?_, ?_, trivial⟩
      · rw [List.map_cons, List.append_assoc]
        simp [hread]
      · simp only [List.length_cons]
        omega
    | none =>
      have hsome : (Fixed.readFile dir f).isSome = false := by rw [hread]; rfl
      have hnone : (Fixed.readFile dir f).isNone = true := by rw [hread]; rfl
      have hfilt1 : (f :: fs).filter (fun f => (Fixed.readFile dir f).isSome) =
          fs.filter (fun f => (Fixed.readFile dir f).isSome) := by
        simp [List.filter_cons, hsome]
      have hfilt2 : (f :: fs).filter (fun f => (Fixed.readFile dir f).isNone) =
          f :: fs.filter (fun f => (Fixed.readFile dir f).isNone) := by
        simp [List.filter_cons, hnone]
      rw [hfilt1] at hnodup hdisj
      rw [hfilt1, hfilt2]
      simp only [List.foldl_cons]
      have hstep : Fixed.processFile dir st f =
          ⟨st.bundle, st.processed, st.errors + 1⟩ := by
        simp only [Fixed.processFile, hread]
      rw [hstep]
      rw [ih _ hnodup ?hd3]
      case hd3 => exact fun k hk => hdisj k hk
      simp only [Fixed.BundleState.mk.injEq]
      refine ⟨trivial, trivial, ?_⟩
      simp only [List.length_cons]
      omega

/-- C8, counterexample: when two successfully processed files derive the
same key (`x.SVG.svg` strips to `x.SVG`, the name of another file), the
JavaScript object assignment overwrites, so the bundle has fewer keys
than successfully processed files: here 2 files process but the bundle
holds 1 key — the claim's "exactly one key per successfully processed
file" fails. -/
theorem c8_collision_counterexample :
    Fixed.bundleEmojis true
        [("x.SVG", some "<x/>"), ("x.SVG.svg", some "<x/>"), ("bad.svg", none)] =
      Fixed.RunResult.done [("x.SVG", Fixed.svgToDataUri "<x/>")] 2 1 ∧
    ([("x.SVG", Fixed.svgToDataUri "<x/>")] : List (String × String)).length ≠ 2 := by
  refine ⟨by decide, by decide⟩

/-- C8, amended: in a run where some `.svg` files fail to read, provided
the keys of the successfully read files are pairwise distinct (the common
case; colliding keys overwrite, last write wins), the failure is caught
per file: the run reaches the end with exit status 0, the error counter
equals the number of failed files, and the bundle holds exactly one entry
per successfully processed file, in sorted file order. -/
theorem c8_per_file_recovery (dir : List (String × Option String))
    (hfail : ∃ f ∈ Fixed.svgFiles dir, (Fixed.readFile dir f).isNone = true)
    (hkeys : (((Fixed.svgFiles dir).filter
        (fun f => (Fixed.readFile dir f).isSome)).map Fixed.basenameKey).Nodup) :
    Fixed.bundleEmojis true dir = Fixed.RunResult.done
      (((Fixed.svgFiles dir).filter (fun f => (Fixed.readFile dir f).isSome)).map
        (fun f => (Fixed.basenameKey f,
          Fixed.svgToDataUri ((Fixed.readFile dir f).getD ""))))
      ((Fixed.svgFiles dir).filter (fun f => (Fixed.readFile dir f).isSome)).length
      ((Fixed.svgFiles dir).filter (fun f => (Fixed.readFile dir f).isNone)).length := by
  obtain ⟨f0, hf0, _⟩ := hfail
  have hne : Fixed.svgFiles dir ≠ [] := by
    intro h0
    rw [h0] at hf0
    simp at hf0
  have hempty : (Fixed.svgFiles dir).isEmpty = false := by
    cases h : Fixed.svgFiles dir with
    | nil => exact absurd h hne
    | cons a as => rfl
  simp only [Fixed.bundleEmojis, Bool.not_true, if_false, hempty, Bool.false_eq_true]
  rw [Fixed.batches, batchesAux_foldl (Fixed.processFile dir) _ _ _ (Nat.le_refl _)]
  rw [processFile_fold dir _ _ hkeys (by intro k hk; simp)]
  simp

/-- C8 witness: one readable and one unreadable file; the run ends with
exit 0, one bundle entry, one processed file, one error. -/
theorem c8_per_file_recovery_witness :
    ("b.svg" ∈ Fixed.svgFiles [("a.svg", some "<x/>"), ("b.svg", none)] ∧
      (Fixed.readFile [("a.svg", some "<x/>"), ("b.svg", none)] "b.svg").isNone = true) ∧
    Fixed.bundleEmojis true [("a.svg", some "<x/>"), ("b.svg", none)] =
      Fixed.RunResult.done [("a", Fixed.svgToDataUri "<x/>")] 1 1 := by
  refine ⟨⟨by decide, by decide⟩, ?_⟩
  rw [c8_per_file_recovery [("a.svg", some "<x/>"), ("b.svg", none)]
    ⟨"b.svg", by decide, by decide⟩ (by decide)]
  decide

/-! ## Equivalence of the key derivation with the claim, and C9 -/

theorem all_false_of_mem (p : Char → Bool) (l : List Char) (x : Char)
    (hx : x ∈ l) (hp : p x = false) : l.all p = false := by
  cases h : l.all p with
  | false => rfl
  | true =>
    rw [List.all_eq_true] at h
    rw [h x hx] at hp
    exact absurd hp (by simp)

theorem stripExtL_of_ext (a e : List Char) (he : e ≠ [])
    (hgood : ∀ x ∈ e, (x != '.' && x != '/') = true) :
    Fixed.stripExtL (a ++ '.' :: e) = a := by
  induction a with
  | nil =>
    simp only [List.nil_append, Fixed.stripExtL]
    have h1 : ('.' : Char) = '.' := rfl
    have h2 : e.isEmpty = false := by
      cases e with
      | nil => exact absurd rfl he
      | cons x xs => rfl
    have h3 : e.all (fun x => x != '.' && x != '/') = true := List.all_eq_true.mpr hgood
    simp [h2, h3]
  | cons x a2 ih =>
    simp only [List.cons_append, Fixed.stripExtL]
    have hdot : ('.' : Char) ∈ a2 ++ '.' :: e := List.mem_append_right _ (List.mem_cons_self _ _)
    have hall : (a2 ++ '.' :: e).all (fun x => x != '.' && x != '/') = false :=
      all_false_of_mem _ _ '.' hdot (by decide)
    simp [hall, ih]

theorem stripExtL_of_no_ext (l : List Char) (h : ¬HasExt l) :
    Fixed.stripExtL l = l := by
  induction l with
  | nil => rfl
  | cons c cs ih =>
    simp only [Fixed.stripExtL]
    have hcond : (c = '.' && !cs.isEmpty && cs.all fun x => x != '.' && x != '/') = false := by
      cases hc : (c = '.' && !cs.isEmpty && cs.all fun x => x != '.' && x != '/') with
      | false => rfl
      | true =>
        exfalso
        simp only [Bool.and_eq_true, decide_eq_true_eq, Bool.not_eq_true'] at hc
        refine h ⟨[], cs, ?_, ?_, ?_⟩
        · rw [hc.1.1]; rfl
        · intro h0
          rw [h0] at hc
          exact absurd hc.1.2 (by decide)
        · exact List.all_eq_true.mp hc.2
    rw [hcond]
    simp only [Bool.false_eq_true, if_false]
    have hcs : ¬HasExt cs := by
      rintro ⟨a, e, rfl, he, hgood⟩
      exact h ⟨c :: a, e, rfl, he, hgood⟩
    rw [ih hcs]

theorem claimStripExt_of_ext (a e : List Char) (he : e ≠ [])
    (hgood : ∀ x ∈ e, (x != '.' && x != '/') = true) :
    claimStripExt (a ++ '.' :: e) = a := by
  have hrev : (a ++ '.' :: e).reverse = e.reverse ++ '.' :: a.reverse := by
    simp [List.reverse_append]
  have hgoodrev : ∀ x ∈ e.reverse, (x != '.' && x != '/') = true :=
    fun x hx => hgood x (List.mem_reverse.mp hx)
  have htake : ((a ++ '.' :: e).reverse.takeWhile (fun c => c != '.' && c != '/')) =
      e.reverse := by
    rw [hrev]
    exact takeWhile_append_stop _ _ _ _ hgoodrev (by decide)
  have hdrop : ((a ++ '.' :: e).reverse.dropWhile (fun c => c != '.' && c != '/')) =
      '.' :: a.reverse := by
    rw [hrev]
    exact dropWhile_append_stop _ _ _ _ hgoodrev (by decide)
  have hne : e.reverse ≠ [] := by
    intro h0
    exact he (by simpa using congrArg List.reverse h0)
  obtain ⟨y, ys, hys⟩ : ∃ y ys, e.reverse = y :: ys := by
    cases h0 : e.reverse with
    | nil => exact absurd h0 hne
    | cons y ys => exact ⟨y, ys, rfl⟩
  simp only [claimStripExt, hdrop, htake, hys]
  simp

theorem claimStripExt_of_no_ext (l : List Char) (h : ¬HasExt l) :
    claimStripExt l = l := by
  simp only [claimStripExt]
  split
  · rename_i more x xs hdrop htake
    exfalso
    apply h
    have hsplit : (x :: xs) ++ '.' :: more = l.reverse := by
      rw [← htake, ← hdrop]
      exact List.takeWhile_append_dropWhile _ _
    refine ⟨more.reverse, (x :: xs).reverse, ?_, by simp, ?_⟩
    · have h2 := congrArg List.reverse hsplit
      simp only [List.reverse_reverse] at h2
      rw [← h2]
      simp [List.reverse_append]
    · intro z hz
      have hz2 : z ∈ x :: xs := List.mem_reverse.mp hz
      have hz3 : z ∈ l.reverse.takeWhile (fun c => c != '.' && c != '/') := by
        rw [htake]
        exact hz2
      exact List.mem_takeWhile_imp (p := fun c => c != '.' && c != '/') hz3
  · rfl

theorem stripExtL_eq_claim (l : List Char) : Fixed.stripExtL l = claimStripExt l := by
  by_cases h : HasExt l
  · obtain ⟨a, e, rfl, he, hgood⟩ := h
    rw [stripExtL_of_ext a e he hgood, claimStripExt_of_ext a e he hgood]
  · rw [stripExtL_of_no_ext l h, claimStripExt_of_no_ext l h]

theorem flatMap_sanitize (l : List Char) :
    l.flatMap (fun c => if isWordCh c then [c] else ['_']) = claimSanitize l := by
  induction l with
  | nil => rfl
  | cons c cs ih =>
    by_cases hc : isWordCh c = true
    · simp [claimSanitize, hc, ih]
    · simp only [Bool.not_eq_true] at hc
      simp [claimSanitize, hc, ih]

/-- C9: for every file name, `idFromFilename` produces `"e_"` followed by
the name with its extension removed (the part from the last dot on,
when what follows that dot is nonempty and free of `.` and `/`) and with
every character outside `[a-zA-Z0-9_-]` replaced by `_` — the regex
formulation of the source agrees with the last-dot-split formulation of
the claim on every input. -/
theorem c9_id_from_filename (name : String) :
    Fixed.idFromFilename name =
      "e_" ++ String.mk (claimSanitize (claimStripExt name.data)) := by
  rw [Fixed.idFromFilename, stripExtL_eq_claim]
  congr 1
  congr 1
  exact flatMap_sanitize _
